import Mathlib

set_option maxRecDepth 40000

/-!
Verification of the skill-manager bundle discovery and format-transformation
engine.  File contents are modelled as `List Char` (Rust `String`s are UTF-8;
byte positions are recovered through each character's UTF-8 size), directory
trees as an inductive `Entry` type, and paths as lists of path segments.
Every definition mirrors one function of the Rust source (`target.rs`,
`bundle.rs`, `source.rs`, `manifest.rs`, `discover.rs`).
-/

namespace SkillMgr

abbrev Str := List Char

/-- Rust `str::trim_start` (ASCII whitespace; the source is only ever applied
to ASCII-whitespace-delimited markdown lines). -/
def rustTrimStart (l : Str) : Str := l.dropWhile Char.isWhitespace

/-- Rust `str::trim_end`. -/
def rustTrimEnd (l : Str) : Str := (l.reverse.dropWhile Char.isWhitespace).reverse

/-- Rust `str::trim`. -/
def rustTrim (l : Str) : Str := rustTrimEnd (rustTrimStart l)

/-- Split a character list at every occurrence of `sep` (like Rust
`str::split(sep)`): always returns at least one piece. -/
def splitOnChar (sep : Char) : Str → List Str
  | [] => [[]]
  | c :: cs =>
    let r := splitOnChar sep cs
    if c = sep then [] :: r
    else
      match r with
      | [] => [[c]]
      | h :: t => (c :: h) :: t

/-- Strip one trailing carriage return (Rust `str::lines` treats `\r\n` as a
line terminator). -/
def stripCR (l : Str) : Str := if l.getLast? = some '\r' then l.dropLast else l

/-- Drop a final empty piece (Rust `str::lines` does not yield an empty final
line for content ending in a newline). -/
def dropFinalEmpty (ls : List Str) : List Str :=
  if ls.getLast? = some ([] : Str) then ls.dropLast else ls

/-- Rust `str::lines().collect()`. -/
def rustLines (content : Str) : List Str :=
  (dropFinalEmpty (splitOnChar '\n' content)).map stripCR

/-- Join lines, terminating each with `\n` (the transforms build their output
with `push_str(line); push('\n')`). -/
def unlines (ls : List Str) : Str := (ls.map (· ++ ['\n'])).flatten

/-- Rust `str::contains(pattern)` for a string pattern (substring test). -/
def containsSub (pat : Str) : Str → Bool
  | [] => pat.isEmpty
  | c :: rest => pat.isPrefixOf (c :: rest) || containsSub pat rest

/-- Rust `str::find(pattern)`: byte index of the first occurrence.  On the
inputs the source feeds it (ASCII delimiters) character index and byte index
coincide for the purpose it is used for (splitting at the match). -/
def findSub (l pat : Str) : Option Nat :=
  match l with
  | [] => if pat.isEmpty then some 0 else none
  | c :: rest =>
    if pat.isPrefixOf (c :: rest) then some 0
    else (findSub rest pat).map (· + 1)

/-- Number of bytes in the UTF-8 encoding of a character. -/
def charBytes (c : Char) : Nat :=
  if c.toNat < 0x80 then 1
  else if c.toNat < 0x800 then 2
  else if c.toNat < 0x10000 then 3
  else 4

/-- Rust `str::len()`: the length in UTF-8 bytes. -/
def utf8Len (l : Str) : Nat := (l.map charBytes).sum

/-- Rust byte slicing `&text[..n]`: the characters making up the first `n`
bytes, or `none` when `n` is not a character boundary (Rust panics there) or
exceeds the length. -/
def takeBytes : Str → Nat → Option Str
  | _, 0 => some []
  | [], _ + 1 => none
  | c :: cs, n + 1 =>
    if charBytes c ≤ n + 1 then (takeBytes cs (n + 1 - charBytes c)).map (c :: ·)
    else none

/-- `target.rs::truncate_description`: keep text of at most 200 bytes, else
cut at byte 197 and append `...`.  `none` models the byte-boundary panic of
`&text[..197]`. -/
def truncate_description (text : Str) : Option Str :=
  if utf8Len text ≤ 200 then some text
  else (takeBytes text 197).map (· ++ "...".toList)

/-- Body scan of `target.rs::extract_description_from_body` (the loop body,
after `lines.iter().skip(start_from)` has been applied). -/
def extractDescAux : List Str → Option Str
  | [] => some ("Skill instructions".toList)
  | l :: rest =>
    let t := rustTrim l
    if t = [] ∨ t = "---".toList then extractDescAux rest
    else if t.headD ' ' = '#' then
      truncate_description (rustTrim (t.dropWhile (· = '#')))
    else truncate_description t

/-- `target.rs::extract_description_from_body`. -/
def extract_description_from_body (lines : List Str) (start_from : Nat) : Option Str :=
  extractDescAux (lines.drop start_from)

/-- Index of the line closing the frontmatter (the second `---` line), as
found by the scanning loops of the transforms. -/
def fmClose (lines : List Str) : Option Nat :=
  ((lines.drop 1).findIdx? (· = "---".toList)).map (· + 1)

/-- The frontmatter lines scanned for fields: everything between the opening
`---` and the closing `---`, or all remaining lines when the frontmatter is
never closed (the Rust loop then keeps `in_frontmatter` set to the end). -/
def fmRegion (lines : List Str) : List Str :=
  match fmClose lines with
  | some e => (lines.drop 1).take (e - 1)
  | none => lines.drop 1

/-- Whether some scanned frontmatter line starts with the given field key. -/
def hasFmField (key : Str) (lines : List Str) : Bool :=
  (fmRegion lines).any (fun l => key.isPrefixOf l)

/-- `target.rs::transform_skill_file`, as a function from source content to
written content.  `none` models a panic: either the byte-boundary panic in
`truncate_description`, or the `frontmatter_end - 1` underflow that a
debug build hits when the frontmatter is never closed. -/
def transform_skill_file (content : Str) (skill_name : Str) : Option Str :=
  let lines := rustLines content
  if lines.head? = some ("---".toList) then
    let hasName := hasFmField ("name:".toList) lines
    let hasDesc := hasFmField ("description:".toList) lines
    if hasName ∧ hasDesc then some content
    else
      match fmClose lines with
      | none => none
      | some e =>
        let copied := (lines.drop 1).take (e - 1)
        let tail := lines.drop e
        let assemble : Option Str → Str := fun d =>
          unlines (["---".toList]
            ++ (if hasName then [] else ["name: ".toList ++ skill_name])
            ++ copied
            ++ (match d with
                | none => []
                | some d => ["description: \"".toList ++ d ++ "\"".toList])
            ++ tail)
        if hasDesc then some (assemble none)
        else (extract_description_from_body lines (e + 1)).map (fun d => assemble (some d))
  else
    (extract_description_from_body lines 0).map (fun d =>
      "---\n".toList ++ "name: ".toList ++ skill_name ++ "\n".toList
        ++ "description: \"".toList ++ d ++ "\"\n".toList
        ++ "---\n".toList ++ content)

/-- `target.rs::transform_cursor_rule`: ensure `description` and
`alwaysApply` frontmatter fields (also used for Codex rules). -/
def transform_cursor_rule (content : Str) : Option Str :=
  let lines := rustLines content
  if lines.head? = some ("---".toList) then
    let hasDesc := hasFmField ("description:".toList) lines
    let hasAlways := hasFmField ("alwaysApply:".toList) lines
    if hasDesc ∧ hasAlways then some content
    else
      match fmClose lines with
      | none => none
      | some e =>
        let copied := (lines.drop 1).take (e - 1)
        let tail := lines.drop e
        let assemble : Option Str → Str := fun d =>
          unlines (["---".toList]
            ++ copied
            ++ (match d with
                | none => []
                | some d => ["description: \"".toList ++ d ++ "\"".toList])
            ++ (if hasAlways then [] else ["alwaysApply: false".toList])
            ++ tail)
        if hasDesc then some (assemble none)
        else (extract_description_from_body lines (e + 1)).map (fun d => assemble (some d))
  else
    (extract_description_from_body lines 0).map (fun d =>
      "---\n".toList ++ "description: \"".toList ++ d ++ "\"\n".toList
        ++ "alwaysApply: false\n".toList ++ "---\n".toList ++ content)

/-- A frontmatter line holding a Claude-style comma-separated tools list. -/
def isCommaToolsLine (l : Str) : Bool :=
  "tools:".toList.isPrefixOf (rustTrim l) && l.contains ','

/-- `target.rs::transform_cursor_agent`: ensure `name` and `description`
fields, dropping any Claude-style `tools:` comma line (also used for Codex
agents). -/
def transform_cursor_agent (content : Str) (skill_name : Str) : Option Str :=
  let lines := rustLines content
  if lines.head? = some ("---".toList) then
    let hasName := hasFmField ("name:".toList) lines
    let hasDesc := hasFmField ("description:".toList) lines
    if hasName ∧ hasDesc then some content
    else
      match fmClose lines with
      | none => none
      | some e =>
        let copied := ((lines.drop 1).take (e - 1)).filter (fun l => ¬ isCommaToolsLine l)
        let tail := lines.drop e
        let assemble : Option Str → Str := fun d =>
          unlines (["---".toList]
            ++ (if hasName then [] else ["name: ".toList ++ skill_name])
            ++ copied
            ++ (match d with
                | none => []
                | some d => ["description: \"".toList ++ d ++ "\"".toList])
            ++ tail)
        if hasDesc then some (assemble none)
        else (extract_description_from_body lines (e + 1)).map (fun d => assemble (some d))
  else
    (extract_description_from_body lines 0).map (fun d =>
      "---\n".toList ++ "name: ".toList ++ skill_name ++ "\n".toList
        ++ "description: \"".toList ++ d ++ "\"\n".toList
        ++ "---\n".toList ++ content)

/-- The arms of the `match` in `target.rs::claude_to_opencode_tool`, in
source order (first match wins, like the Rust `match`). -/
def claudeToOpencodeTable : List (Str × Str) :=
  [("Read".toList, "read".toList), ("read".toList, "read".toList),
   ("Write".toList, "write".toList), ("write".toList, "write".toList),
   ("Edit".toList, "edit".toList), ("edit".toList, "edit".toList),
   ("Grep".toList, "grep".toList), ("grep".toList, "grep".toList),
   ("Glob".toList, "glob".toList), ("glob".toList, "glob".toList),
   ("Bash".toList, "bash".toList), ("bash".toList, "bash".toList),
   ("WebSearch".toList, "websearch".toList), ("websearch".toList, "websearch".toList),
   ("WebFetch".toList, "webfetch".toList), ("webfetch".toList, "webfetch".toList),
   ("TodoWrite".toList, "todowrite".toList), ("todowrite".toList, "todowrite".toList),
   ("TodoRead".toList, "todoread".toList), ("todoread".toList, "todoread".toList),
   ("LS".toList, "bash".toList),
   ("MultiEdit".toList, "edit".toList),
   ("Task".toList, "bash".toList),
   ("NotebookEdit".toList, "edit".toList),
   ("NotebookRead".toList, "read".toList),
   ("AskUserQuestion".toList, "question".toList), ("question".toList, "question".toList),
   ("KillBash".toList, "bash".toList), ("BashOutput".toList, "bash".toList),
   ("list".toList, "list".toList), ("lsp".toList, "lsp".toList),
   ("patch".toList, "patch".toList), ("skill".toList, "skill".toList)]

/-- `target.rs::claude_to_opencode_tool`: the unknown arm passes the name
through as-is (the warning on stderr is not modelled). -/
def claude_to_opencode_tool (tool : Str) : Str :=
  ((claudeToOpencodeTable.find? (fun p => p.1 = tool)).map Prod.snd).getD tool

/-- The arms of the `match` in `target.rs::opencode_to_claude_tool`. -/
def opencodeToClaudeTable : List (Str × Str) :=
  [("read".toList, "Read".toList), ("write".toList, "Write".toList),
   ("edit".toList, "Edit".toList), ("grep".toList, "Grep".toList),
   ("glob".toList, "Glob".toList), ("bash".toList, "Bash".toList),
   ("websearch".toList, "WebSearch".toList), ("webfetch".toList, "WebFetch".toList),
   ("todowrite".toList, "TodoWrite".toList), ("todoread".toList, "TodoRead".toList),
   ("question".toList, "AskUserQuestion".toList), ("list".toList, "LS".toList),
   ("lsp".toList, "lsp".toList), ("patch".toList, "patch".toList),
   ("skill".toList, "skill".toList)]

/-- `target.rs::opencode_to_claude_tool` (unknown names pass through). -/
def opencode_to_claude_tool (tool : Str) : Str :=
  ((opencodeToClaudeTable.find? (fun p => p.1 = tool)).map Prod.snd).getD tool

theorem isPrefixOf_length_le {l p : Str} (h : p.isPrefixOf l = true) :
    p.length ≤ l.length :=
  (List.isPrefixOf_iff_prefix.mp h).length_le

/-- Rust `str::trim_start_matches("tools:")`: repeatedly strip the prefix. -/
def dropToolsPfx (l : Str) : Str :=
  if h : "tools:".toList.isPrefixOf l then
    have : l.length - 6 < l.length := by
      have h6 : 6 ≤ l.length := isPrefixOf_length_le h
      omega
    dropToolsPfx (l.drop 6)
  else l
termination_by l.length
decreasing_by simpa using this

/-- One step of the frontmatter rewriting loop of
`target.rs::transform_agent_file`: a comma `tools:` line becomes a YAML block
of `  {tool}: true` entries, a `color:` line is dropped, anything else is
kept. -/
def convertFmLineA (l : Str) : List Str :=
  if isCommaToolsLine l then
    let tools_str := rustTrim (dropToolsPfx l)
    let tool_list := (splitOnChar ',' tools_str).map rustTrim
    "tools:".toList ::
      tool_list.map (fun t => "  ".toList ++ claude_to_opencode_tool (rustTrim t) ++ ": true".toList)
  else if ("color:".toList).isPrefixOf (rustTrim l) then []
  else [l]

/-- The frontmatter/body split loop shared by `transform_agent_file` and
`transform_agent_for_claude`: every literal `---` line is consumed, lines
between the first and second `---` go to the frontmatter, the rest to the
body. -/
def splitFm : List Str → Bool → Bool → List Str × List Str
  | [], _, _ => ([], [])
  | l :: rest, inFm, foundEnd =>
    if l = "---".toList then
      if inFm then splitFm rest false true else splitFm rest true foundEnd
    else
      let r := splitFm rest inFm foundEnd
      if inFm ∧ ¬ foundEnd then (l :: r.1, r.2) else (r.1, l :: r.2)

/-- `target.rs::transform_agent_file` (Claude → OpenCode agent transform).
Without frontmatter the file is copied unchanged (`fs::copy`). -/
def transform_agent_file (content : Str) : Option Str :=
  let lines := rustLines content
  if lines.head? ≠ some ("---".toList) then some content
  else
    let fb := splitFm lines false false
    some (unlines (["---".toList] ++ fb.1.flatMap convertFmLineA ++ ["---".toList] ++ fb.2))

/-- The inner `while` of `target.rs::transform_agent_for_claude`: walk the
YAML tools block collecting mapped names of entries set `true`, skipping
entries set `false`, and stop (returning the unconsumed lines) at the first
line that is neither; a non-empty line not starting with `-` ends the block,
one starting with `-` is skipped. -/
def collectTools : List Str → List Str × List Str
  | [] => ([], [])
  | l :: rest =>
    let inner := rustTrim l
    if containsSub (": true".toList) inner then
      let name := rustTrim ((splitOnChar ':' inner).headD [])
      let r := collectTools rest
      (opencode_to_claude_tool name :: r.1, r.2)
    else if containsSub (": false".toList) inner then collectTools rest
    else if inner = [] ∨ (¬ " ".toList.isPrefixOf inner ∧ ¬ "-".toList.isPrefixOf inner) then
      ([], l :: rest)
    else collectTools rest

theorem collectTools_rem_length_le (ls : List Str) :
    (collectTools ls).2.length ≤ ls.length := by
  induction ls with
  | nil => simp [collectTools]
  | cons l rest ih =>
    rw [collectTools]
    dsimp only
    split
    · simpa using Nat.le_succ_of_le ih
    · split
      · exact Nat.le_succ_of_le ih
      · split
        · simp
        · exact Nat.le_succ_of_le ih

/-- Rust `Vec::join(", ")`. -/
def joinCommaSpace : List Str → Str
  | [] => []
  | [t] => t
  | t :: rest => t ++ ", ".toList ++ joinCommaSpace rest

/-- The outer `while` of `target.rs::transform_agent_for_claude` over the
frontmatter lines: a bare `tools:` line triggers block collection (the
rebuilt comma line is emitted only when some tool was enabled); every other
line — including `color:`, which the source passes through explicitly — is
kept. -/
def processFmB : List Str → List Str
  | [] => []
  | l :: rest =>
    if rustTrim l = "tools:".toList then
      (if (collectTools rest).1 = [] then []
       else ["tools: ".toList ++ joinCommaSpace (collectTools rest).1])
        ++ processFmB (collectTools rest).2
    else l :: processFmB rest
termination_by ls => ls.length
decreasing_by
  all_goals simp only [List.length_cons]
  all_goals first
    | omega
    | exact Nat.lt_succ_of_le (collectTools_rem_length_le _)

/-- `target.rs::transform_agent_for_claude` (OpenCode → Claude agent
transform). -/
def transform_agent_for_claude (content : Str) : Option Str :=
  let lines := rustLines content
  if lines.head? ≠ some ("---".toList) then some content
  else
    let fb := splitFm lines false false
    some (unlines (["---".toList] ++ processFmB fb.1 ++ ["---".toList] ++ fb.2))

/-- `target.rs::AgentFormat`. -/
inductive AgentFormat | Claude | OpenCode | Unknown
deriving DecidableEq, Repr

/-- Loop of `target.rs::detect_agent_format`. -/
def detectAux : List Str → Bool → AgentFormat
  | [], _ => .Unknown
  | l :: rest, inFm =>
    if l = "---".toList then
      if inFm then .Unknown else detectAux rest true
    else if inFm ∧ "tools:".toList.isPrefixOf (rustTrim l) then
      if l.contains ',' then .Claude else .OpenCode
    else detectAux rest inFm

/-- `target.rs::detect_agent_format`. -/
def detect_agent_format (content : Str) : AgentFormat :=
  detectAux (rustLines content) false

/-- `bundle.rs::SkillType`. -/
inductive SkillType | Skill | Agent | Command | Rule
deriving DecidableEq, Repr

/-- `bundle.rs::SkillType::dir_name`. -/
def SkillType.dir_name : SkillType → Str
  | .Skill => "skills".toList
  | .Agent => "agents".toList
  | .Command => "commands".toList
  | .Rule => "rules".toList

/-- `bundle.rs::SkillType::alt_dir_names`. -/
def SkillType.alt_dir_names : SkillType → List Str
  | .Rule => ["cursor-rules".toList]
  | _ => []

/-- `bundle.rs::SkillFile` / `manifest.rs`'s revision of it.  `source_dir`
exists only in the manifest-scanner revision of the struct; the scanners of
`bundle.rs` leave it `none`. -/
structure SkillFile where
  name : Str
  path : List Str
  skill_type : SkillType
  source_dir : Option (List Str)
deriving DecidableEq, Repr

/-- `bundle.rs::ResourceMeta`. -/
structure ResourceMeta where
  name : Option Str
  author : Option Str
  description : Option Str
deriving DecidableEq, Repr

/-- `bundle.rs::BundleMeta`. -/
structure BundleMeta where
  author : Option Str
  description : Option Str
deriving DecidableEq, Repr

/-- `bundle.rs::Bundle`. -/
structure Bundle where
  name : Str
  path : List Str
  skills : List SkillFile
  agents : List SkillFile
  commands : List SkillFile
  rules : List SkillFile
  meta : BundleMeta
deriving DecidableEq, Repr

/-- `bundle.rs::Bundle::is_empty`. -/
def Bundle.isEmpty (b : Bundle) : Bool :=
  b.skills.isEmpty && b.agents.isEmpty && b.commands.isEmpty && b.rules.isEmpty

/-- `target.rs::Tool`. -/
inductive Tool | Claude | OpenCode | Cursor | Codex
deriving DecidableEq, Repr

/-- A write result: the destination path (as path segments, mirroring the
`PathBuf::join` chain) and the content written to the primary file, `none`
when the transform panics.  Companion-file copying (`copy_companion_files`)
touches other files only and never changes either component. -/
abbrev WriteResult := List Str × Option Str

/-- `target.rs::Tool::write_claude`. -/
def write_claude (target : List Str) (bundle_name : Str) (sk : SkillFile) (content : Str) :
    WriteResult :=
  match sk.skill_type with
  | .Skill =>
    let combined := bundle_name ++ "-".toList ++ sk.name
    (target ++ [".claude".toList, "skills".toList, combined, "SKILL.md".toList],
     transform_skill_file content combined)
  | .Rule =>
    let combined := bundle_name ++ "-".toList ++ sk.name
    (target ++ [".claude".toList, "rules".toList, combined, "RULE.md".toList],
     transform_skill_file content combined)
  | .Agent =>
    (target ++ [".claude".toList, "agents".toList, bundle_name, sk.name ++ ".md".toList],
     match detect_agent_format content with
     | .OpenCode => transform_agent_for_claude content
     | _ => some content)
  | .Command =>
    (target ++ [".claude".toList, "commands".toList, bundle_name, sk.name ++ ".md".toList],
     some content)

/-- `target.rs::Tool::write_opencode`. -/
def write_opencode (target : List Str) (bundle_name : Str) (sk : SkillFile) (content : Str) :
    WriteResult :=
  let combined := bundle_name ++ "-".toList ++ sk.name
  match sk.skill_type with
  | .Skill =>
    (target ++ [".opencode".toList, "skills".toList, combined, "SKILL.md".toList],
     transform_skill_file content combined)
  | .Rule =>
    (target ++ [".opencode".toList, "rules".toList, combined, "RULE.md".toList],
     transform_skill_file content combined)
  | .Agent =>
    (target ++ [".opencode".toList, "agents".toList, combined ++ ".md".toList],
     match detect_agent_format content with
     | .Claude => transform_agent_file content
     | _ => some content)
  | .Command =>
    (target ++ [".opencode".toList, "commands".toList, combined ++ ".md".toList],
     some content)

/-- `target.rs::Tool::write_cursor`. -/
def write_cursor (target : List Str) (bundle_name : Str) (sk : SkillFile) (content : Str) :
    WriteResult :=
  let combined := bundle_name ++ "-".toList ++ sk.name
  match sk.skill_type with
  | .Skill =>
    (target ++ [".cursor".toList, "skills".toList, combined, "SKILL.md".toList],
     transform_skill_file content combined)
  | .Agent =>
    (target ++ [".cursor".toList, "agents".toList, combined ++ ".md".toList],
     transform_cursor_agent content combined)
  | .Command =>
    (target ++ [".cursor".toList, "commands".toList, combined ++ ".md".toList],
     some content)
  | .Rule =>
    (target ++ [".cursor".toList, "rules".toList, combined, "RULE.md".toList],
     transform_cursor_rule content)

/-- `target.rs::Tool::write_codex`. -/
def write_codex (target : List Str) (bundle_name : Str) (sk : SkillFile) (content : Str) :
    WriteResult :=
  let combined := bundle_name ++ "-".toList ++ sk.name
  match sk.skill_type with
  | .Skill =>
    (target ++ [".codex".toList, "skills".toList, combined, "SKILL.md".toList],
     transform_skill_file content combined)
  | .Agent =>
    (target ++ [".codex".toList, "agents".toList, combined ++ ".md".toList],
     transform_cursor_agent content combined)
  | .Command =>
    (target ++ [".codex".toList, "commands".toList, combined ++ ".md".toList],
     some content)
  | .Rule =>
    (target ++ [".codex".toList, "rules".toList, combined, "RULE.md".toList],
     transform_cursor_rule content)

/-- `target.rs::Tool::write_file`. -/
def write_file (tool : Tool) (target : List Str) (bundle_name : Str) (sk : SkillFile)
    (content : Str) : WriteResult :=
  match tool with
  | .Claude => write_claude target bundle_name sk content
  | .OpenCode => write_opencode target bundle_name sk content
  | .Cursor => write_cursor target bundle_name sk content
  | .Codex => write_codex target bundle_name sk content

/-! ### Filesystem model -/

/-- A directory entry: a file with its content, or a subdirectory with its
entries (in directory-listing order, which `read_dir` leaves unspecified). -/
inductive Entry
  | file (name : Str) (content : Str)
  | dir (name : Str) (entries : List Entry)

def Entry.entryName : Entry → Str
  | .file n _ => n
  | .dir n _ => n

/-- Find a subdirectory by name. -/
def lookupDir (es : List Entry) (n : Str) : Option (List Entry) :=
  es.findSome? fun e =>
    match e with
    | .dir m sub => if m = n then some sub else none
    | .file _ _ => none

/-- Find a file's content by name. -/
def lookupFile (es : List Entry) (n : Str) : Option Str :=
  es.findSome? fun e =>
    match e with
    | .file m c => if m = n then some c else none
    | .dir _ _ => none

/-- `Path::exists` within a directory listing. -/
def entryExists (es : List Entry) (n : Str) : Bool :=
  es.any (fun e => e.entryName = n)

/-- Resolve a relative path to a directory. -/
def lookupPath (es : List Entry) : List Str → Option (List Entry)
  | [] => some es
  | n :: rest => (lookupDir es n).bind (lookupPath · rest)

/-- Index (from the front) of the last `.` in a file name. -/
def lastDotIdx (n : Str) : Option Nat :=
  (n.reverse.findIdx? (· = '.')).map (fun j => n.length - 1 - j)

/-- Rust `Path::file_stem` / `Path::extension` of a plain file name: no
extension when there is no `.`, or when the only `.` is leading (hidden
file); otherwise split at the last `.`. -/
def rustExtStem (n : Str) : Str × Option Str :=
  match lastDotIdx n with
  | none => (n, none)
  | some 0 => (n, none)
  | some i => (n.take i, some (n.drop (i + 1)))

def fileStem (n : Str) : Str := (rustExtStem n).1

def isMdFile (n : Str) : Bool := (rustExtStem n).2 = some ("md".toList)

/-- Byte-wise (= code-point-wise) lexicographic order used by Rust
`str::cmp` in the `sort_by` calls. -/
def lexLe : Str → Str → Bool
  | [], _ => true
  | _ :: _, [] => false
  | a :: as, b :: bs => if a < b then true else if a = b then lexLe as bs else false

/-- `files.sort_by(|a, b| a.name.cmp(&b.name))`. -/
def sortFiles (fs : List SkillFile) : List SkillFile :=
  fs.mergeSort (fun a b => lexLe a.name b.name)

/-- `bundles.sort_by(|a, b| a.name.cmp(&b.name))`. -/
def sortBundles (bs : List Bundle) : List Bundle :=
  bs.mergeSort (fun a b => lexLe a.name b.name)

/-- `bundle.rs::Bundle::scan_type`: md files of the flat type directory,
sorted by name. -/
def scan_type (bundlePath : List Str) (bundleEntries : List Entry) (t : SkillType) :
    List SkillFile :=
  match lookupDir bundleEntries t.dir_name with
  | none => []
  | some es =>
    sortFiles (es.filterMap fun e =>
      match e with
      | .file n _ =>
        if isMdFile n then some ⟨fileStem n, bundlePath ++ [t.dir_name, n], t, none⟩ else none
      | .dir _ _ => none)

/-- `bundle.rs::Bundle::from_path` (fails only on an invalid root name). -/
def Bundle.from_path (path : List Str) (entries : List Entry) : Option Bundle :=
  path.getLast?.map fun name =>
    { name
      path
      skills := scan_type path entries .Skill
      agents := scan_type path entries .Agent
      commands := scan_type path entries .Command
      rules := scan_type path entries .Rule
      meta := ⟨none, none⟩ }

/-- Extract the value of a `key: value` line.  Models `serde_yaml`
deserialization of `ResourceMeta` for the plain unquoted scalar mappings the
repository's fixtures use. -/
def parseYamlField (key : Str) (content : Str) : Option Str :=
  (rustLines content).findSome? fun l =>
    if (key ++ ":".toList).isPrefixOf l then some (rustTrim (l.drop (key.length + 1)))
    else none

/-- Models `serde_yaml::from_str::<ResourceMeta>` on simple scalar YAML. -/
def parseResourceMeta (content : Str) : ResourceMeta :=
  { name := parseYamlField ("name".toList) content
    author := parseYamlField ("author".toList) content
    description := parseYamlField ("description".toList) content }

/-- `bundle.rs::Bundle::load_meta_yaml`. -/
def load_meta_yaml (es : List Entry) : Option ResourceMeta :=
  (lookupFile es ("meta.yaml".toList)).map parseResourceMeta

/-- `bundle.rs::Bundle::extract_frontmatter`: text strictly between the
leading `---` and the next occurrence of `---` (a substring search, per
`str::find`), fed to the YAML parser. -/
def extract_frontmatter (content : Str) : Option ResourceMeta :=
  if ("---".toList).isPrefixOf content then
    (findSub (content.drop 3) ("---".toList)).map fun i =>
      parseResourceMeta ((content.drop 3).take i)
  else none

/-- Expected canonical content-file names of
`bundle.rs::scan_resource_folder_with_meta` (lowercase first). -/
def resourceExpectedNames : SkillType → List Str
  | .Skill => ["skill.md".toList, "SKILL.md".toList]
  | .Agent => ["agent.md".toList, "AGENT.md".toList]
  | .Command => ["command.md".toList, "COMMAND.md".toList]
  | .Rule => ["rule.md".toList, "RULE.md".toList]

/-- `bundle.rs::Bundle::scan_resource_folder_with_meta`. -/
def scan_resource_folder_with_meta (resourceEntries : List Entry) (resourcePath : List Str)
    (t : SkillType) (folder_name : Str) : Option (SkillFile × ResourceMeta) :=
  let meta := (load_meta_yaml resourceEntries).getD ⟨none, none, none⟩
  let name := meta.name.getD folder_name
  match (resourceExpectedNames t).findSome? (fun ex =>
      if entryExists resourceEntries ex then some ex else none) with
  | some ex => some (⟨name, resourcePath ++ [ex], t, none⟩, meta)
  | none =>
    (resourceEntries.findSome? fun e =>
      match e with
      | .file n _ => if isMdFile n then some n else none
      | .dir _ _ => none).map
      fun n => (⟨name, resourcePath ++ [n], t, none⟩, meta)

/-- `push` of a `SkillFile` onto the matching list of a `Bundle`. -/
def pushArtifact (b : Bundle) (t : SkillType) (f : SkillFile) : Bundle :=
  match t with
  | .Skill => { b with skills := b.skills ++ [f] }
  | .Agent => { b with agents := b.agents ++ [f] }
  | .Command => { b with commands := b.commands ++ [f] }
  | .Rule => { b with rules := b.rules ++ [f] }

/-- The `bundles.entry(bundle_name).or_insert_with(..)` + push step of
`list_from_resources_path`.  The `HashMap` is modelled as an association
list; the map's iteration order only affects the pre-sort order of the
resulting bundle vector, which the final sort normalizes. -/
def upsertResource (bs : List Bundle) (resourcePath : List Str) (meta : ResourceMeta)
    (t : SkillType) (f : SkillFile) : List Bundle :=
  if bs.any (fun b => b.name = f.name) then
    bs.map (fun b => if b.name = f.name then pushArtifact b t f else b)
  else
    bs ++ [pushArtifact
      { name := f.name, path := resourcePath, skills := [], agents := [], commands := [],
        rules := [], meta := ⟨meta.author, meta.description⟩ } t f]

/-- Scan of one `resources/{type-dir}` directory (the inner `for entry in
read_dir(&type_dir)` loop of `list_from_resources_path`). -/
def scanResTypeDir (t : SkillType) (typePath : List Str) (es : List Entry)
    (bs : List Bundle) : List Bundle :=
  es.foldl (fun bs e =>
    match e with
    | .file _ _ => bs
    | .dir fn sub =>
      if fn.headD ' ' = '.' ∨ fn.headD ' ' = '_' then bs
      else
        match scan_resource_folder_with_meta sub (typePath ++ [fn]) t fn with
        | none => bs
        | some (f, meta) => upsertResource bs (typePath ++ [fn]) meta t f) bs

/-- `bundle.rs::Bundle::list_from_resources_path`. -/
def list_from_resources_path (rootPath : List Str) (rootEntries : List Entry) : List Bundle :=
  match lookupDir rootEntries ("resources".toList) with
  | none => []
  | some res =>
    sortBundles
      ([SkillType.Skill, .Agent, .Command, .Rule].foldl (fun bs t =>
        (t.dir_name :: t.alt_dir_names).foldl (fun bs dn =>
          match lookupDir res dn with
          | none => bs
          | some es => scanResTypeDir t (rootPath ++ ["resources".toList, dn]) es bs) bs) [])

/-- `bundle.rs::Bundle::list_from_anthropic_path` (marketplace format):
each `skills/{folder}/SKILL.md` subfolder becomes a single-skill bundle. -/
def list_from_anthropic_path (rootPath : List Str) (rootEntries : List Entry) : List Bundle :=
  match lookupDir rootEntries ("skills".toList) with
  | none => []
  | some skillsEs =>
    sortBundles (skillsEs.filterMap fun e =>
      match e with
      | .file _ _ => none
      | .dir fn sub =>
        if fn.headD ' ' = '.' ∨ fn.headD ' ' = '_' then none
        else
          match lookupFile sub ("SKILL.md".toList) with
          | none => none
          | some c =>
            let fm := extract_frontmatter c
            let name := (fm.bind (·.name)).getD fn
            some { name
                   path := rootPath ++ ["skills".toList, fn]
                   skills := [⟨name, rootPath ++ ["skills".toList, fn, "SKILL.md".toList],
                              .Skill, none⟩]
                   agents := [], commands := [], rules := []
                   meta := ⟨fm.bind (·.author), fm.bind (·.description)⟩ })

/-- Expected canonical names in `manifest.rs::scan_component_dir`
(uppercase first, unlike the resources scanner). -/
def componentExpectedNames : SkillType → List Str
  | .Skill => ["SKILL.md".toList, "skill.md".toList]
  | .Agent => ["AGENT.md".toList, "agent.md".toList]
  | .Command => ["COMMAND.md".toList, "command.md".toList]
  | .Rule => ["RULE.md".toList, "rule.md".toList]

/-- `manifest.rs::scan_component_dir`: flat `.md`/`.mdc` files and
`{folder}/CANONICAL.md` directories (falling back to any `.md` file),
sorted by name. -/
def scan_component_dir (dirPath : List Str) (es : List Entry) (t : SkillType) :
    List SkillFile :=
  sortFiles (es.filterMap fun e =>
    match e with
    | .file n _ =>
      if (rustExtStem n).2 = some ("md".toList) ∨ (rustExtStem n).2 = some ("mdc".toList) then
        some ⟨fileStem n, dirPath ++ [n], t, none⟩
      else none
    | .dir dn sub =>
      match (componentExpectedNames t).findSome? (fun ex =>
          if entryExists sub ex then some ex else none) with
      | some ex => some ⟨dn, dirPath ++ [dn, ex], t, some (dirPath ++ [dn])⟩
      | none =>
        (sub.findSome? fun se =>
          match se with
          | .file n _ => if isMdFile n then some n else none
          | .dir _ _ => none).map
          fun n => ⟨dn, dirPath ++ [dn, n], t, some (dirPath ++ [dn])⟩)

/-- `manifest.rs::ComponentPaths` with paths resolved to segment lists. -/
structure ComponentPaths where
  skills : Option (List Str)
  agents : Option (List Str)
  commands : Option (List Str)
  rules : Option (List Str)
deriving Repr

def ComponentPaths.dirFor (p : ComponentPaths) : SkillType → List Str
  | .Skill => p.skills.getD ["skills".toList]
  | .Agent => p.agents.getD ["agents".toList]
  | .Command => p.commands.getD ["commands".toList]
  | .Rule => p.rules.getD ["rules".toList]

/-- `manifest.rs::BundleDeclaration` (path fields as segment lists). -/
structure BundleDeclaration where
  name : Str
  relPath : List Str
  description : Option Str
  paths : ComponentPaths
deriving Repr

/-- `manifest.rs::bundle_from_declaration`. -/
def bundle_from_declaration (sourceRoot : List Str) (rootEntries : List Entry)
    (decl : BundleDeclaration) : Bundle :=
  let bundleRoot := sourceRoot ++ decl.relPath
  let scanAt := fun (t : SkillType) =>
    match lookupPath rootEntries (decl.relPath ++ decl.paths.dirFor t) with
    | none => []
    | some es => scan_component_dir (bundleRoot ++ decl.paths.dirFor t) es t
  { name := decl.name
    path := bundleRoot
    skills := scanAt .Skill
    agents := scanAt .Agent
    commands := scanAt .Command
    rules := scanAt .Rule
    meta := ⟨none, decl.description⟩ }

/-- `source.rs::LocalSource::list_bundles`: resources format when a
`resources/` directory exists, else the flat scan over subdirectories
(hidden and `shell` skipped, empty bundles dropped), sorted by name. -/
def LocalSource.list_bundles (rootPath : List Str) (rootEntries : List Entry) : List Bundle :=
  if (lookupDir rootEntries ("resources".toList)).isSome then
    list_from_resources_path rootPath rootEntries
  else
    sortBundles (rootEntries.filterMap fun e =>
      match e with
      | .file _ _ => none
      | .dir n sub =>
        if n.headD ' ' = '.' ∨ n = "shell".toList then none
        else
          match Bundle.from_path (rootPath ++ [n]) sub with
          | some b => if b.isEmpty then none else some b
          | none => none)

/-! ### Install-state discovery (`discover.rs`) -/

/-- `discover.rs::InstalledTool` (note: no `Codex` variant exists). -/
inductive InstalledTool | Claude | OpenCode | Cursor
deriving DecidableEq, Repr

/-- `discover.rs::InstalledSkill` (its `SkillType` enum is identical to
`bundle.rs`'s and is shared here). -/
structure InstalledSkill where
  name : Str
  skill_type : SkillType
  tool : InstalledTool
  path : List Str
  bundle : Option Str
deriving DecidableEq, Repr

/-- `WalkDir` collecting every file (depth-first, directory order). -/
def walkFiles (pre : List Str) : List Entry → List (List Str × Str)
  | [] => []
  | .file n c :: rest => (pre ++ [n], c) :: walkFiles pre rest
  | .dir n sub :: rest => walkFiles (pre ++ [n]) sub ++ walkFiles pre rest

/-- The shared per-file logic of `discover_claude` for one walked type
directory: keep `.md` files, name from the stem, bundle from the parent
directory when it is not the type root itself. -/
def claudeWalkSkills (typeRoot : List Str) (t : SkillType) (es : List Entry) :
    List InstalledSkill :=
  (walkFiles typeRoot es).filterMap fun pc =>
    let fn := pc.1.getLastD []
    if isMdFile fn then
      let name := fileStem fn
      let parent := pc.1.dropLast
      let bundle := if parent ≠ typeRoot then parent.getLast? else none
      if name ≠ [] then some ⟨name, t, .Claude, pc.1, bundle⟩ else none
    else none

/-- `discover.rs::discover_claude`: walks `.claude/commands` and
`.claude/agents` only. -/
def discover_claude (base : List Entry) : List InstalledSkill :=
  match lookupDir base (".claude".toList) with
  | none => []
  | some cl =>
    (match lookupDir cl ("commands".toList) with
     | none => []
     | some es => claudeWalkSkills [".claude".toList, "commands".toList] .Command es)
    ++
    (match lookupDir cl ("agents".toList) with
     | none => []
     | some es => claudeWalkSkills [".claude".toList, "agents".toList] .Agent es)

/-- Folder-based discovery of `{root}/{name}/{CANONICAL}`: subdirectories
containing the canonical file, name (and bundle) from the folder name. -/
def discoverFolderBased (root : List Str) (canonical : Str) (t : SkillType)
    (tool : InstalledTool) (es : List Entry) : List InstalledSkill :=
  es.filterMap fun e =>
    match e with
    | .file _ _ => none
    | .dir n sub =>
      if entryExists sub canonical then
        if n ≠ [] then some ⟨n, t, tool, root ++ [n, canonical], some n⟩ else none
      else none

/-- Flat-file discovery of `{root}/*.md`. -/
def discoverFlatMd (root : List Str) (t : SkillType) (tool : InstalledTool)
    (es : List Entry) : List InstalledSkill :=
  es.filterMap fun e =>
    match e with
    | .dir _ _ => none
    | .file n _ =>
      if isMdFile n then
        if fileStem n ≠ [] then some ⟨fileStem n, t, tool, root ++ [n], none⟩ else none
      else none

/-- `discover.rs::discover_opencode`: scans the singular `skill`, `agent`
and `command` directories. -/
def discover_opencode (base : List Entry) : List InstalledSkill :=
  match lookupDir base (".opencode".toList) with
  | none => []
  | some oc =>
    (match lookupDir oc ("skill".toList) with
     | none => []
     | some es =>
       discoverFolderBased [".opencode".toList, "skill".toList] "SKILL.md".toList
         .Skill .OpenCode es)
    ++
    (match lookupDir oc ("agent".toList) with
     | none => []
     | some es => discoverFlatMd [".opencode".toList, "agent".toList] .Agent .OpenCode es)
    ++
    (match lookupDir oc ("command".toList) with
     | none => []
     | some es => discoverFlatMd [".opencode".toList, "command".toList] .Command .OpenCode es)

/-- `discover.rs::discover_cursor`: scans `skills` and `rules`. -/
def discover_cursor (base : List Entry) : List InstalledSkill :=
  match lookupDir base (".cursor".toList) with
  | none => []
  | some cu =>
    (match lookupDir cu ("skills".toList) with
     | none => []
     | some es =>
       discoverFolderBased [".cursor".toList, "skills".toList] "SKILL.md".toList
         .Skill .Cursor es)
    ++
    (match lookupDir cu ("rules".toList) with
     | none => []
     | some es =>
       discoverFolderBased [".cursor".toList, "rules".toList] "RULE.md".toList
         .Rule .Cursor es)

/-- `discover.rs::discover_installed`. -/
def discover_installed (base : List Entry) : List InstalledSkill :=
  discover_claude base ++ discover_opencode base ++ discover_cursor base

/-! ### Order lemmas for `lexLe` -/

theorem lexLe_refl (l : Str) : lexLe l l = true := by
  induction l with
  | nil => rfl
  | cons a as ih => simp [lexLe, ih]

theorem lexLe_total (a b : Str) : (lexLe a b || lexLe b a) = true := by
  induction a generalizing b with
  | nil => simp [lexLe]
  | cons x xs ih =>
    cases b with
    | nil => simp [lexLe]
    | cons y ys =>
      by_cases hxy : x < y
      · simp [lexLe, hxy]
      · by_cases heq : x = y
        · subst heq
          simpa [lexLe, hxy] using ih ys
        · have hyx : y < x := by
            rcases lt_trichotomy x y with h | h | h
            · exact absurd h hxy
            · exact absurd h heq
            · exact h
          have : ¬ y = x := fun h => heq h.symm
          simp [lexLe, hxy, heq, hyx, this]

theorem lexLe_trans {a b c : Str} (hab : lexLe a b = true) (hbc : lexLe b c = true) :
    lexLe a c = true := by
  induction a generalizing b c with
  | nil => simp [lexLe]
  | cons x xs ih =>
    cases b with
    | nil => simp [lexLe] at hab
    | cons y ys =>
      cases c with
      | nil => simp [lexLe] at hbc
      | cons z zs =>
        by_cases hxy : x < y
        · by_cases hyz : y < z
          · simp [lexLe, lt_trans hxy hyz]
          · by_cases hyzeq : y = z
            · subst hyzeq; simp [lexLe, hxy]
            · simp [lexLe, hyz, hyzeq] at hbc
        · by_cases hxyeq : x = y
          · subst hxyeq
            by_cases hyz : x < z
            · simp [lexLe, hyz]
            · by_cases hyzeq : x = z
              · subst hyzeq
                simp only [lexLe, if_neg hyz, if_pos rfl] at hbc ⊢
                simp only [lexLe, if_neg hxy, if_pos rfl] at hab
                exact ih hab hbc
              · simp [lexLe, hyz, hyzeq] at hbc
          · simp [lexLe, hxy, hxyeq] at hab

/-- Sortedness (by `name`, non-strictly) of a list of skill files. -/
def FilesSorted (fs : List SkillFile) : Prop :=
  fs.Pairwise (fun a b => lexLe a.name b.name = true)

theorem sortFiles_sorted (fs : List SkillFile) : FilesSorted (sortFiles fs) :=
  @List.sorted_mergeSort SkillFile (fun a b => lexLe a.name b.name)
    (fun _ _ _ hab hbc => lexLe_trans hab hbc)
    (fun a b => lexLe_total a.name b.name) fs

theorem constName_sorted {fs : List SkillFile} {n : Str}
    (h : ∀ f ∈ fs, f.name = n) : FilesSorted fs := by
  induction fs with
  | nil => exact List.Pairwise.nil
  | cons f rest ih =>
    refine List.Pairwise.cons (fun g hg => ?_) (ih (fun g hg => h g (List.mem_cons_of_mem f hg)))
    rw [h f (List.mem_cons_self f rest), h g (List.mem_cons_of_mem f hg)]
    exact lexLe_refl n

/-- Every artifact list of the bundle is sorted by name. -/
def BundleSorted (b : Bundle) : Prop :=
  FilesSorted b.skills ∧ FilesSorted b.agents ∧ FilesSorted b.commands ∧ FilesSorted b.rules

/-! ### Line-splitting lemmas -/

theorem splitOnChar_ne_nil (sep : Char) (l : Str) : splitOnChar sep l ≠ [] := by
  induction l with
  | nil => simp [splitOnChar]
  | cons c cs ih =>
    simp only [splitOnChar]
    by_cases h : c = sep
    · simp [h]
    · simp only [h, if_false]
      rcases he : splitOnChar sep cs with _ | ⟨x, xs⟩
      · exact absurd he ih
      · simp

theorem splitOnChar_no_sep {sep : Char} {l : Str} (h : sep ∉ l) :
    splitOnChar sep l = [l] := by
  induction l with
  | nil => rfl
  | cons c cs ih =>
    have hc : ¬ c = sep := fun he => h (he ▸ List.mem_cons_self c cs)
    have hcs : sep ∉ cs := fun hm => h (List.mem_cons_of_mem c hm)
    rw [splitOnChar]
    simp only [hc, if_false, ih hcs]

theorem splitOnChar_cons_ne {sep c : Char} (cs : Str) (h : ¬ c = sep) :
    splitOnChar sep (c :: cs) =
      (c :: (splitOnChar sep cs).headD []) :: (splitOnChar sep cs).tail := by
  rw [splitOnChar]
  simp only [h, if_false]
  rcases he : splitOnChar sep cs with _ | ⟨x, xs⟩
  · exact absurd he (splitOnChar_ne_nil sep cs)
  · rfl

theorem splitOnChar_append_cons {sep : Char} {xs : Str} (ys : Str) (h : sep ∉ xs) :
    splitOnChar sep (xs ++ sep :: ys) = xs :: splitOnChar sep ys := by
  induction xs with
  | nil => simp [splitOnChar]
  | cons c cs ih =>
    have hc : ¬ c = sep := fun he => h (he ▸ List.mem_cons_self c cs)
    have hcs : sep ∉ cs := fun hm => h (List.mem_cons_of_mem c hm)
    rw [List.cons_append, splitOnChar_cons_ne _ hc, ih hcs]
    rfl

theorem mem_splitOnChar_not_sep {sep : Char} {l : Str} :
    ∀ p ∈ splitOnChar sep l, sep ∉ p := by
  induction l with
  | nil =>
    intro p hp
    simp [splitOnChar] at hp
    simp [hp]
  | cons c cs ih =>
    intro p hp
    simp only [splitOnChar] at hp
    by_cases hc : c = sep
    · simp only [hc, if_true] at hp
      rcases List.mem_cons.mp hp with h | h
      · simp [h]
      · exact ih p h
    · simp only [hc, if_false] at hp
      rcases he : splitOnChar sep cs with _ | ⟨x, xs⟩
      · exact absurd he (splitOnChar_ne_nil sep cs)
      · rw [he] at hp
        rcases List.mem_cons.mp hp with h | h
        · subst h
          intro hm
          rcases List.mem_cons.mp hm with h | h
          · exact hc h.symm
          · exact ih x (he ▸ List.mem_cons_self x xs) h
        · exact ih p (he ▸ List.mem_cons_of_mem x h)

theorem unlines_cons (l : Str) (ls : List Str) :
    unlines (l :: ls) = l ++ '\n' :: unlines ls := by
  simp [unlines]

theorem splitOnChar_unlines {ls : List Str} (h : ∀ l ∈ ls, '\n' ∉ l) :
    splitOnChar '\n' (unlines ls) = ls ++ [[]] := by
  induction ls with
  | nil => rfl
  | cons l rest ih =>
    rw [unlines_cons,
      splitOnChar_append_cons _ (h l (List.mem_cons_self l rest)),
      ih (fun x hx => h x (List.mem_cons_of_mem l hx))]
    rfl

theorem dropFinalEmpty_concat_nil (ls : List Str) :
    dropFinalEmpty (ls ++ [[]]) = ls := by
  simp [dropFinalEmpty]

theorem rustLines_unlines {ls : List Str} (h : ∀ l ∈ ls, '\n' ∉ l) :
    rustLines (unlines ls) = ls.map stripCR := by
  rw [rustLines, splitOnChar_unlines h, dropFinalEmpty_concat_nil]

theorem stripCR_eq_self {l : Str} (h : l.getLast? ≠ some '\r') : stripCR l = l := by
  simp [stripCR, h]

theorem stripCR_subset {l : Str} : stripCR l ⊆ l := by
  unfold stripCR
  split
  · exact (List.dropLast_sublist l).subset
  · exact fun x hx => hx

theorem mem_rustLines_no_newline {c : Str} : ∀ l ∈ rustLines c, '\n' ∉ l := by
  intro l hl
  rw [rustLines] at hl
  rcases List.mem_map.mp hl with ⟨p, hp, rfl⟩
  have hp' : p ∈ splitOnChar '\n' c := by
    unfold dropFinalEmpty at hp
    revert hp
    split
    · exact fun hp => (List.dropLast_sublist _).subset hp
    · exact fun hp => hp
  exact fun hm => mem_splitOnChar_not_sep p hp' (stripCR_subset hm)

/-! ### Trim and byte-slicing lemmas -/

theorem rustTrimStart_eq_self {l : Str} (h : ∀ c, l.head? = some c → ¬ c.isWhitespace = true) :
    rustTrimStart l = l := by
  cases l with
  | nil => rfl
  | cons c cs =>
    have : ¬ c.isWhitespace = true := h c rfl
    simp [rustTrimStart, List.dropWhile_cons, this]

theorem rustTrimEnd_eq_self {l : Str} (h : ∀ c, l.getLast? = some c → ¬ c.isWhitespace = true) :
    rustTrimEnd l = l := by
  unfold rustTrimEnd
  have hfix : List.dropWhile Char.isWhitespace l.reverse = l.reverse := by
    rcases hr : l.reverse with _ | ⟨c, cs⟩
    · simp
    · have hc : l.getLast? = some c := by
        have := congrArg List.head? hr
        rwa [List.head?_reverse] at this
      rw [List.dropWhile_cons, if_neg (by simpa using h c hc)]
  rw [hfix, List.reverse_reverse]

theorem dropWhile_all_ne {p : Char → Bool} {l : Str} (h : ∀ c ∈ l, ¬ p c = true) :
    l.dropWhile p = l := by
  cases l with
  | nil => rfl
  | cons c cs => simp [List.dropWhile_cons, h c (List.mem_cons_self c cs)]

theorem rustTrim_eq_self_of_no_ws {l : Str} (h : ∀ c ∈ l, ¬ c.isWhitespace = true) :
    rustTrim l = l := by
  unfold rustTrim rustTrimStart rustTrimEnd
  rw [dropWhile_all_ne h, dropWhile_all_ne (fun c hc => h c (List.mem_reverse.mp hc)),
    List.reverse_reverse]

theorem rustTrim_cons_ws {c : Char} {l : Str} (h : c.isWhitespace = true) :
    rustTrim (c :: l) = rustTrim l := by
  unfold rustTrim rustTrimStart
  rw [List.dropWhile_cons]
  simp [h]

theorem rustTrimStart_subset {l : Str} : rustTrimStart l ⊆ l :=
  (List.dropWhile_sublist _).subset

theorem rustTrimEnd_subset {l : Str} : rustTrimEnd l ⊆ l := by
  intro x hx
  unfold rustTrimEnd at hx
  rw [List.mem_reverse] at hx
  exact List.mem_reverse.mp ((List.dropWhile_sublist _).subset hx)

theorem rustTrim_subset {l : Str} : rustTrim l ⊆ l :=
  fun _ hx => rustTrimStart_subset (rustTrimEnd_subset hx)

theorem takeBytes_pref {l : Str} {n : Nat} {r : Str} (h : takeBytes l n = some r) :
    r <+: l := by
  induction l generalizing n r with
  | nil =>
    cases n with
    | zero => simp [takeBytes] at h; simp [h]
    | succ m => simp [takeBytes] at h
  | cons c cs ih =>
    cases n with
    | zero => simp [takeBytes] at h; simp [h]
    | succ m =>
      rw [takeBytes] at h
      by_cases hb : charBytes c ≤ m + 1
      · simp only [hb, if_true, Option.map_eq_some'] at h
        rcases h with ⟨r', hr', rfl⟩
        exact List.cons_prefix_cons.mpr ⟨rfl, ih hr'⟩
      · simp [hb] at h

theorem takeBytes_utf8Len {l : Str} {n : Nat} {r : Str} (h : takeBytes l n = some r) :
    utf8Len r = n := by
  induction l generalizing n r with
  | nil =>
    cases n with
    | zero => simp [takeBytes] at h; simp [h, utf8Len]
    | succ m => simp [takeBytes] at h
  | cons c cs ih =>
    cases n with
    | zero => simp [takeBytes] at h; simp [h, utf8Len]
    | succ m =>
      rw [takeBytes] at h
      by_cases hb : charBytes c ≤ m + 1
      · simp only [hb, if_true, Option.map_eq_some'] at h
        rcases h with ⟨r', hr', rfl⟩
        have := ih hr'
        simp only [utf8Len, List.map_cons, List.sum_cons] at this ⊢
        omega
      · simp [hb] at h

theorem truncate_subset_or_dots {t d : Str} (h : truncate_description t = some d) :
    ∀ x ∈ d, x ∈ t ∨ x = '.' := by
  unfold truncate_description at h
  by_cases hl : utf8Len t ≤ 200
  · simp only [hl, if_true, Option.some_inj] at h
    exact fun x hx => Or.inl (h ▸ hx)
  · simp only [hl, if_false, Option.map_eq_some'] at h
    rcases h with ⟨r, hr, rfl⟩
    intro x hx
    rcases List.mem_append.mp hx with hx | hx
    · exact Or.inl ((takeBytes_pref hr).subset hx)
    · right
      simpa using hx

theorem extractDescAux_chars {ls : List Str} {d : Str} (h : extractDescAux ls = some d) :
    ∀ x ∈ d, (∃ l ∈ ls, x ∈ l) ∨ x ∈ ("Skill instructions".toList) ∨ x = '.' := by
  induction ls with
  | nil =>
    simp only [extractDescAux, Option.some_inj] at h
    exact fun x hx => Or.inr (Or.inl (h ▸ hx))
  | cons l rest ih =>
    rw [extractDescAux] at h
    by_cases hskip : rustTrim l = [] ∨ rustTrim l = "---".toList
    · simp only [hskip, if_true] at h
      intro x hx
      rcases ih h x hx with ⟨l', hl', hx'⟩ | h'
      · exact Or.inl ⟨l', List.mem_cons_of_mem l hl', hx'⟩
      · exact Or.inr h'
    · simp only [hskip, if_false] at h
      by_cases hhash : (rustTrim l).headD ' ' = '#'
      · simp only [hhash, if_true] at h
        intro x hx
        rcases truncate_subset_or_dots h x hx with hx' | hx'
        · exact Or.inl ⟨l, List.mem_cons_self l rest,
            rustTrim_subset (List.dropWhile_sublist _ |>.subset (rustTrim_subset hx'))⟩
        · exact Or.inr (Or.inr hx')
      · simp only [hhash, if_false] at h
        intro x hx
        rcases truncate_subset_or_dots h x hx with hx' | hx'
        · exact Or.inl ⟨l, List.mem_cons_self l rest, rustTrim_subset hx'⟩
        · exact Or.inr (Or.inr hx')

theorem extractDescAux_no_newline {ls : List Str} {d : Str}
    (hls : ∀ l ∈ ls, '\n' ∉ l) (h : extractDescAux ls = some d) : '\n' ∉ d := by
  intro hm
  rcases extractDescAux_chars h '\n' hm with ⟨l, hl, hx⟩ | h' | h'
  · exact hls l hl hx
  · simp at h'
  · simp at h'

theorem isPrefixOf_stripCR {p l : Str} (hp : p.isPrefixOf l = true) (hr : '\r' ∉ p) :
    p.isPrefixOf (stripCR l) = true := by
  unfold stripCR
  by_cases hlast : l.getLast? = some '\r'
  · simp only [hlast, if_true]
    have hpre : p <+: l := List.isPrefixOf_iff_prefix.mp hp
    have hne : p ≠ l := by
      rintro rfl
      cases p with
      | nil => simp at hlast
      | cons c cs => exact hr (List.mem_of_mem_getLast? hlast)
    have hlen : p.length < l.length :=
      lt_of_le_of_ne hpre.length_le (fun he => hne (List.IsPrefix.eq_of_length hpre he))
    apply List.isPrefixOf_iff_prefix.mpr
    rw [List.prefix_iff_eq_take] at hpre ⊢
    rw [List.dropLast_eq_take, List.take_take, min_eq_left (by omega)]
    exact hpre
  · simp only [hlast, if_false]
    exact hp

theorem dropFinalEmpty_cons {a : Str} {ls : List Str} (h : ls ≠ []) :
    dropFinalEmpty (a :: ls) = a :: dropFinalEmpty ls := by
  cases ls with
  | nil => exact absurd rfl h
  | cons b ls' =>
    by_cases hg : (b :: ls').getLast? = some ([] : Str)
    · simp [dropFinalEmpty, List.getLast?_cons_cons, hg, List.dropLast_cons₂]
    · simp [dropFinalEmpty, List.getLast?_cons_cons, hg]

/-! ### Lemmas for the agent capability conversions -/

/-- A well-formed style-A capability name: non-empty, comma- and newline-free,
already trimmed, not starting or ending in whitespace. -/
def GoodToolName (t : Str) : Prop :=
  t ≠ [] ∧ ',' ∉ t ∧ '\n' ∉ t ∧ rustTrim t = t ∧
    (∀ c ∈ t.take 1, ¬ c.isWhitespace = true) ∧
    (∀ c ∈ t.reverse.take 1, ¬ c.isWhitespace = true)

theorem goodTool_head {t : Str} (h : GoodToolName t) :
    ∀ c, t.head? = some c → ¬ c.isWhitespace = true := by
  intro c hc
  apply h.2.2.2.2.1
  cases t with
  | nil => simp at hc
  | cons a l =>
    simp only [List.head?_cons, Option.some_inj] at hc
    subst hc
    simp

theorem goodTool_last {t : Str} (h : GoodToolName t) :
    ∀ c, t.getLast? = some c → ¬ c.isWhitespace = true := by
  intro c hc
  apply h.2.2.2.2.2
  rw [← List.head?_reverse] at hc
  cases hr : t.reverse with
  | nil => rw [hr] at hc; simp at hc
  | cons a l =>
    rw [hr] at hc
    simp only [List.head?_cons, Option.some_inj] at hc
    subst hc
    simp [hr]

theorem joinCommaSpace_cons_cons (t t' : Str) (r : List Str) :
    joinCommaSpace (t :: t' :: r) = t ++ ", ".toList ++ joinCommaSpace (t' :: r) := rfl

theorem mem_joinCommaSpace {x : Char} {ts : List Str} (hx : x ∈ joinCommaSpace ts) :
    (∃ t ∈ ts, x ∈ t) ∨ x = ',' ∨ x = ' ' := by
  induction ts with
  | nil => simp [joinCommaSpace] at hx
  | cons t rest ih =>
    cases rest with
    | nil =>
      simp only [joinCommaSpace] at hx
      exact Or.inl ⟨t, List.mem_cons_self t [], hx⟩
    | cons t' rest' =>
      rw [joinCommaSpace_cons_cons] at hx
      rcases List.mem_append.mp hx with h | h
      · rcases List.mem_append.mp h with h | h
        · exact Or.inl ⟨t, List.mem_cons_self _ _, h⟩
        · simp at h
          exact Or.inr h
      · rcases ih h with ⟨u, hu, hxu⟩ | h'
        · exact Or.inl ⟨u, List.mem_cons_of_mem t hu, hxu⟩
        · exact Or.inr h'

theorem joinCommaSpace_ne_nil {ts : List Str} (h1 : ts ≠ [])
    (h2 : ∀ t ∈ ts, t ≠ []) : joinCommaSpace ts ≠ [] := by
  cases ts with
  | nil => exact absurd rfl h1
  | cons t rest =>
    cases rest with
    | nil => simpa [joinCommaSpace] using h2 t (List.mem_cons_self t [])
    | cons t' rest' =>
      rw [joinCommaSpace_cons_cons]
      simp [h2 t (List.mem_cons_self _ _)]

theorem joinCommaSpace_getLast? {ts : List Str} (h1 : ts ≠ [])
    (h2 : ∀ t ∈ ts, t ≠ []) :
    ∃ t ∈ ts, (joinCommaSpace ts).getLast? = t.getLast? := by
  induction ts with
  | nil => exact absurd rfl h1
  | cons t rest ih =>
    cases rest with
    | nil => exact ⟨t, List.mem_cons_self t [], rfl⟩
    | cons t' rest' =>
      have h2' : ∀ u ∈ t' :: rest', u ≠ [] := fun u hu => h2 u (List.mem_cons_of_mem t hu)
      rcases ih (by simp) h2' with ⟨u, hu, he⟩
      refine ⟨u, List.mem_cons_of_mem t hu, ?_⟩
      rw [joinCommaSpace_cons_cons,
        List.getLast?_append_of_ne_nil _
          (joinCommaSpace_ne_nil (by simp) h2'),
        he]

theorem joinCommaSpace_head? {ts : List Str} {t : Str} (h : ts.head? = some t)
    (ht : t ≠ []) : (joinCommaSpace ts).head? = t.head? := by
  cases ts with
  | nil => simp at h
  | cons a rest =>
    simp only [List.head?_cons, Option.some_inj] at h
    subst h
    cases rest with
    | nil => rfl
    | cons t' rest' =>
      rw [joinCommaSpace_cons_cons, List.append_assoc, List.head?_append_of_ne_nil _ ht]

theorem splitComma_join {ts : List Str} (h1 : ts ≠ [])
    (h2 : ∀ t ∈ ts, ',' ∉ t) :
    splitOnChar ',' (joinCommaSpace ts) =
      ts.headD [] :: ts.tail.map (fun t => ' ' :: t) := by
  induction ts with
  | nil => exact absurd rfl h1
  | cons t rest ih =>
    cases rest with
    | nil =>
      rw [joinCommaSpace, splitOnChar_no_sep (h2 t (List.mem_cons_self t []))]
      rfl
    | cons t' rest' =>
      have h2' : ∀ u ∈ t' :: rest', ',' ∉ u := fun u hu => h2 u (List.mem_cons_of_mem t hu)
      have hstep : joinCommaSpace (t :: t' :: rest') =
          t ++ ',' :: (' ' :: joinCommaSpace (t' :: rest')) := by
        rw [joinCommaSpace_cons_cons]
        simp
      rw [hstep, splitOnChar_append_cons _ (h2 t (List.mem_cons_self _ _)),
        splitOnChar_cons_ne _ (by decide), ih (by simp) h2']
      rfl

/-- After the frontmatter has been closed, every remaining non-`---` line
goes to the body. -/
theorem splitFm_closed {ls : List Str} (h : ∀ l ∈ ls, l ≠ "---".toList) :
    splitFm ls false true = ([], ls) := by
  induction ls with
  | nil => rfl
  | cons l rest ih =>
    rw [splitFm]
    simp only [h l (List.mem_cons_self l rest), if_false]
    rw [ih (fun x hx => h x (List.mem_cons_of_mem l hx))]
    simp

theorem isPrefixOf_length_le' {p l : Str} (h : p.isPrefixOf l = true) :
    p.length ≤ l.length := isPrefixOf_length_le h

theorem dropToolsPfx_append {r : Str} (h : ¬ ("tools:".toList.isPrefixOf r = true)) :
    dropToolsPfx ("tools:".toList ++ r) = r := by
  rw [dropToolsPfx]
  rw [dif_pos (List.isPrefixOf_iff_prefix.mpr (List.prefix_append _ _))]
  have hdrop : ("tools:".toList ++ r).drop 6 = r := by
    have : ("tools:".toList).length = 6 := by decide
    rw [← this, List.drop_left]
  rw [hdrop, dropToolsPfx, dif_neg h]

theorem goodTool_trim {t : Str} (h : GoodToolName t) : rustTrim t = t := h.2.2.2.1

theorem joinder_head_no_ws {ts : List Str} (hts : ∀ t ∈ ts, GoodToolName t)
    (h1 : ts ≠ []) : ∀ c, (joinCommaSpace ts).head? = some c → ¬ c.isWhitespace = true := by
  intro c hc
  cases ts with
  | nil => exact absurd rfl h1
  | cons t rest =>
    rw [joinCommaSpace_head? (List.head?_cons) (hts t (List.mem_cons_self t rest)).1] at hc
    exact goodTool_head (hts t (List.mem_cons_self t rest)) c hc

theorem joinder_last_no_ws {ts : List Str} (hts : ∀ t ∈ ts, GoodToolName t)
    (h1 : ts ≠ []) : ∀ c, (joinCommaSpace ts).getLast? = some c → ¬ c.isWhitespace = true := by
  intro c hc
  rcases joinCommaSpace_getLast? h1 (fun t ht => (hts t ht).1) with ⟨t, ht, he⟩
  rw [he] at hc
  exact goodTool_last (hts t ht) c hc

theorem convertFmLineA_comma {ts : List Str} (hts2 : 2 ≤ ts.length)
    (hts : ∀ t ∈ ts, GoodToolName t) :
    convertFmLineA ("tools: ".toList ++ joinCommaSpace ts) =
      "tools:".toList ::
        ts.map (fun t => "  ".toList ++ claude_to_opencode_tool t ++ ": true".toList) := by
  obtain ⟨t₁, t₂, r, rfl⟩ : ∃ a b r, ts = a :: b :: r := by
    cases ts with
    | nil => simp at hts2
    | cons a rest =>
      cases rest with
      | nil => simp at hts2
      | cons b r => exact ⟨a, b, r, rfl⟩
  have htsne : (t₁ :: t₂ :: r) ≠ [] := by simp
  have htne : ∀ t ∈ t₁ :: t₂ :: r, t ≠ [] := fun t ht => (hts t ht).1
  have hheadL : ∀ c, ("tools: ".toList ++ joinCommaSpace (t₁ :: t₂ :: r)).head? = some c →
      ¬ c.isWhitespace = true := by
    intro c hc
    rw [List.head?_append_of_ne_nil _ (by decide)] at hc
    have h7 : ("tools: ".toList).head? = some 't' := by decide
    rw [h7] at hc
    cases hc
    decide
  have hlastL : ∀ c, ("tools: ".toList ++ joinCommaSpace (t₁ :: t₂ :: r)).getLast? = some c →
      ¬ c.isWhitespace = true := by
    intro c hc
    rw [List.getLast?_append_of_ne_nil _ (joinCommaSpace_ne_nil htsne htne)] at hc
    exact joinder_last_no_ws hts htsne c hc
  have htrimL : rustTrim ("tools: ".toList ++ joinCommaSpace (t₁ :: t₂ :: r)) =
      "tools: ".toList ++ joinCommaSpace (t₁ :: t₂ :: r) := by
    unfold rustTrim
    rw [rustTrimStart_eq_self hheadL, rustTrimEnd_eq_self hlastL]
  have hpf : ("tools:".toList).isPrefixOf
      ("tools: ".toList ++ joinCommaSpace (t₁ :: t₂ :: r)) = true := by
    rw [show ("tools: ".toList) = "tools:".toList ++ [' '] from by decide, List.append_assoc]
    exact List.isPrefixOf_iff_prefix.mpr (List.prefix_append _ _)
  have hcm : ',' ∈ joinCommaSpace (t₁ :: t₂ :: r) := by
    rw [joinCommaSpace_cons_cons]
    exact List.mem_append.mpr (Or.inl (List.mem_append.mpr (Or.inr (by decide))))
  have hcomma : ("tools: ".toList ++ joinCommaSpace (t₁ :: t₂ :: r)).contains ',' = true :=
    List.elem_iff.mpr (List.mem_append.mpr (Or.inr hcm))
  have hcommaLine : isCommaToolsLine ("tools: ".toList ++ joinCommaSpace (t₁ :: t₂ :: r)) = true := by
    unfold isCommaToolsLine
    rw [htrimL]
    simp [hpf, hcm]
  have hdpfx : dropToolsPfx ("tools: ".toList ++ joinCommaSpace (t₁ :: t₂ :: r)) =
      ' ' :: joinCommaSpace (t₁ :: t₂ :: r) := by
    rw [show ("tools: ".toList) = "tools:".toList ++ [' '] from by decide, List.append_assoc]
    apply dropToolsPfx_append
    intro h
    have hpre := List.isPrefixOf_iff_prefix.mp h
    rcases hpre with ⟨suf, hsuf⟩
    have hh := congrArg List.head? hsuf
    rw [show ("tools:".toList) = 't' :: ("ools:".toList) from by decide] at hh
    simp at hh
  have htrimdrop : rustTrim (' ' :: joinCommaSpace (t₁ :: t₂ :: r)) =
      joinCommaSpace (t₁ :: t₂ :: r) := by
    rw [rustTrim_cons_ws (by decide)]
    unfold rustTrim
    rw [rustTrimStart_eq_self (joinder_head_no_ws hts htsne),
      rustTrimEnd_eq_self (joinder_last_no_ws hts htsne)]
  have hsplitc : (splitOnChar ',' (joinCommaSpace (t₁ :: t₂ :: r))).map rustTrim =
      t₁ :: t₂ :: r := by
    rw [splitComma_join htsne (fun t ht => (hts t ht).2.1)]
    show List.map rustTrim (t₁ :: List.map (fun t => ' ' :: t) (t₂ :: r)) = t₁ :: t₂ :: r
    have hmap : ∀ t ∈ t₂ :: r, (rustTrim ∘ fun t => ' ' :: t) t = id t := by
      intro t ht
      simp only [Function.comp, id]
      rw [rustTrim_cons_ws (by decide)]
      exact goodTool_trim (hts t (List.mem_cons_of_mem t₁ ht))
    rw [List.map_cons, goodTool_trim (hts t₁ (List.mem_cons_self _ _)), List.map_map,
      List.map_congr_left hmap, List.map_id]
  simp only [convertFmLineA, hcommaLine, if_true, hdpfx, htrimdrop, hsplitc]
  congr 1
  apply List.map_congr_left
  intro t ht
  rw [goodTool_trim (hts t ht)]

/-- A body line that survives the round through `rustLines` unchanged and is
not a frontmatter delimiter. -/
def GoodBodyLine (b : Str) : Prop :=
  b ≠ "---".toList ∧ '\n' ∉ b ∧ stripCR b = b

theorem splitFm_dash (ls : List Str) (inFm foundEnd : Bool) :
    splitFm ("---".toList :: ls) inFm foundEnd =
      if inFm then splitFm ls false true else splitFm ls true foundEnd := by
  rw [splitFm]
  simp

theorem splitFm_other {l : Str} (ls : List Str) (inFm foundEnd : Bool)
    (h : l ≠ "---".toList) :
    splitFm (l :: ls) inFm foundEnd =
      if inFm ∧ ¬ foundEnd then
        (l :: (splitFm ls inFm foundEnd).1, (splitFm ls inFm foundEnd).2)
      else ((splitFm ls inFm foundEnd).1, l :: (splitFm ls inFm foundEnd).2) := by
  rw [splitFm, if_neg h]

/-- Full behaviour of `transform_agent_file` on an agent file whose
frontmatter is exactly a comma-separated `tools:` line: one `  {tool}: true`
entry is emitted per listed name, in order. -/
theorem transformAgent_comma_eq (ts body : List Str)
    (hts2 : 2 ≤ ts.length) (hts : ∀ t ∈ ts, GoodToolName t)
    (hbody : ∀ b ∈ body, GoodBodyLine b) :
    transform_agent_file
        (unlines (["---".toList, "tools: ".toList ++ joinCommaSpace ts, "---".toList] ++ body)) =
      some (unlines (["---".toList, "tools:".toList]
        ++ ts.map (fun t => "  ".toList ++ claude_to_opencode_tool t ++ ": true".toList)
        ++ ["---".toList] ++ body)) := by
  have htsne : ts ≠ [] := by
    intro h
    subst h
    simp at hts2
  have htne : ∀ t ∈ ts, t ≠ [] := fun t ht => (hts t ht).1
  have hLnl : '\n' ∉ ("tools: ".toList ++ joinCommaSpace ts) := by
    intro hm
    rcases List.mem_append.mp hm with h | h
    · exact (by decide : '\n' ∉ ("tools: ".toList)) h
    · rcases mem_joinCommaSpace h with ⟨t, ht, hx⟩ | h'
      · exact (hts t ht).2.2.1 hx
      · rcases h' with h' | h' <;> simp at h'
  have hLcr : ("tools: ".toList ++ joinCommaSpace ts).getLast? ≠ some '\r' := by
    rw [List.getLast?_append_of_ne_nil _ (joinCommaSpace_ne_nil htsne htne)]
    intro hc
    exact joinder_last_no_ws hts htsne '\r' hc (by decide)
  have hLne : ("tools: ".toList ++ joinCommaSpace ts) ≠ "---".toList := by
    intro h
    have hlen := congrArg List.length h
    rw [List.length_append] at hlen
    have h7 : ("tools: ".toList).length = 7 := by decide
    have h3 : ("---".toList).length = 3 := by decide
    omega
  have hlines : rustLines
      (unlines (["---".toList, "tools: ".toList ++ joinCommaSpace ts, "---".toList] ++ body)) =
      ["---".toList, "tools: ".toList ++ joinCommaSpace ts, "---".toList] ++ body := by
    rw [rustLines_unlines ?hnl]
    case hnl =>
      intro l hl
      simp only [List.cons_append, List.nil_append, List.mem_cons] at hl
      rcases hl with rfl | rfl | rfl | hl
      · decide
      · exact hLnl
      · decide
      · exact (hbody l hl).2.1
    have : ∀ l ∈ (["---".toList, "tools: ".toList ++ joinCommaSpace ts, "---".toList] ++ body),
        stripCR l = l := by
      intro l hl
      simp only [List.cons_append, List.nil_append, List.mem_cons] at hl
      rcases hl with rfl | rfl | rfl | hl
      · decide
      · exact stripCR_eq_self hLcr
      · decide
      · exact (hbody l hl).2.2
    rw [List.map_congr_left this]
    simp
  have hsplit : splitFm
      (["---".toList, "tools: ".toList ++ joinCommaSpace ts, "---".toList] ++ body) false false =
      ([("tools: ".toList ++ joinCommaSpace ts)], body) := by
    have s1 : (["---".toList, "tools: ".toList ++ joinCommaSpace ts, "---".toList] ++ body) =
        "---".toList :: ("tools: ".toList ++ joinCommaSpace ts) :: "---".toList :: body := rfl
    rw [s1, splitFm_dash, if_neg (by simp), splitFm_other _ _ _ hLne,
      if_pos (by simp), splitFm_dash, if_pos rfl,
      splitFm_closed (fun l hl => (hbody l hl).1)]
  rw [transform_agent_file]
  simp only [hlines]
  rw [if_neg (by simp)]
  simp only [hsplit]
  rw [List.flatMap_cons, List.flatMap_nil,
    convertFmLineA_comma hts2 hts]
  simp [List.append_assoc]

/-- A rendered entry line of a style-B `tools:` block. -/
def renderToolEntry (p : Str × Bool) : Str :=
  "  ".toList ++ p.1 ++ (if p.2 then ": true".toList else ": false".toList)

/-- A well-formed style-B capability name: non-empty, colon-free and free of
whitespace. -/
def GoodCapName (n : Str) : Prop :=
  n ≠ [] ∧ ':' ∉ n ∧ ∀ c ∈ n, ¬ c.isWhitespace = true

theorem containsSub_suffix_self (pat xs : Str) : containsSub pat (xs ++ pat) = true := by
  induction xs with
  | nil =>
    cases pat with
    | nil => rfl
    | cons c rest =>
      rw [List.nil_append, containsSub]
      simp [List.isPrefixOf_iff_prefix.mpr (List.prefix_refl _)]
  | cons c xs ih =>
    rw [List.cons_append, containsSub]
    simp [ih]

theorem containsSub_colon_lead {pat : Str} {n : Str} (post : Str)
    (hpat : pat.head? = some ':') (hn : ':' ∉ n) :
    containsSub pat (n ++ post) = containsSub pat post := by
  induction n with
  | nil => rfl
  | cons c cs ih =>
    have hc : c ≠ ':' := fun he => hn (he ▸ List.mem_cons_self c cs)
    rw [List.cons_append, containsSub]
    have hnp : pat.isPrefixOf (c :: (cs ++ post)) = false := by
      cases pat with
      | nil => simp at hpat
      | cons q qs =>
        simp only [List.head?_cons, Option.some_inj] at hpat
        subst hpat
        show ((':' == c) && qs.isPrefixOf (cs ++ post)) = false
        rw [beq_eq_false_iff_ne.mpr (fun he => hc he.symm), Bool.false_and]
    rw [hnp, Bool.false_or, ih (fun hm => hn (List.mem_cons_of_mem c hm))]

theorem splitColon_head {n : Str} (r : Str) (hn : ':' ∉ n) :
    (splitOnChar ':' (n ++ ':' :: r)).headD [] = n := by
  rw [splitOnChar_append_cons _ hn]
  rfl

theorem renderToolEntry_trim {n : Str} {b : Bool} (hg : GoodCapName n) :
    rustTrim (renderToolEntry (n, b)) =
      n ++ (if b then ": true".toList else ": false".toList) := by
  obtain ⟨hn1, _, hn3⟩ := hg
  have h2 : renderToolEntry (n, b) =
      ' ' :: ' ' :: (n ++ (if b then ": true".toList else ": false".toList)) := rfl
  rw [h2, rustTrim_cons_ws (by decide), rustTrim_cons_ws (by decide)]
  unfold rustTrim
  rw [rustTrimStart_eq_self ?hh, rustTrimEnd_eq_self ?hl]
  case hh =>
    intro c hc
    rw [List.head?_append_of_ne_nil _ hn1] at hc
    exact hn3 c (List.mem_of_mem_head? hc)
  case hl =>
    intro c hc
    rw [List.getLast?_append_of_ne_nil _ (by cases b <;> simp)] at hc
    cases b <;> simp_all <;> (subst hc; decide)

theorem collectTools_block (es : List (Str × Bool))
    (hes : ∀ p ∈ es, GoodCapName p.1) :
    collectTools (es.map renderToolEntry) =
      ((es.filter (fun p => p.2)).map (fun p => opencode_to_claude_tool p.1), []) := by
  induction es with
  | nil => rfl
  | cons p rest ih =>
    obtain ⟨n, b⟩ := p
    have hg := hes (n, b) (List.mem_cons_self _ _)
    have hrest : ∀ q ∈ rest, GoodCapName q.1 := fun q hq => hes q (List.mem_cons_of_mem _ hq)
    rw [List.map_cons, collectTools]
    simp only [renderToolEntry_trim hg]
    cases b with
    | false =>
      have hct : containsSub (": true".toList) (n ++ ": false".toList) = false := by
        rw [containsSub_colon_lead _ (by decide) hg.2.1]
        decide
      have hcf : containsSub (": false".toList) (n ++ ": false".toList) = true :=
        containsSub_suffix_self _ _
      simp only [if_false, hct, hcf, Bool.false_eq_true, if_true]
      rw [ih hrest]
      simp
    | true =>
      have hct : containsSub (": true".toList) (n ++ ": true".toList) = true :=
        containsSub_suffix_self _ _
      simp only [if_true, hct]
      have hname : rustTrim ((splitOnChar ':' (n ++ ": true".toList)).headD []) = n := by
        have hr : (n ++ ": true".toList) = n ++ ':' :: (" true".toList) := rfl
        rw [hr, splitColon_head _ hg.2.1, rustTrim_eq_self_of_no_ws hg.2.2]
      rw [ih hrest]
      simp at hname
      simp [hname]

instance (t : Str) : Decidable (GoodToolName t) := by
  unfold GoodToolName
  infer_instance

instance (b : Str) : Decidable (GoodBodyLine b) := by
  unfold GoodBodyLine
  infer_instance

instance (n : Str) : Decidable (GoodCapName n) := by
  unfold GoodCapName
  infer_instance

/-! ### Claim theorems -/

/-- C1: when the frontmatter block of a source markdown file already contains
both a `name` field and a `description` field, `transform_skill_file` emits
the content byte-for-byte unchanged, so the normalization is idempotent:
`normalize (normalize x) = normalize x = x`. -/
theorem C1_frontmatter_normalization_idempotent (content skill_name : Str)
    (h0 : (rustLines content).head? = some ("---".toList))
    (h1 : hasFmField ("name:".toList) (rustLines content) = true)
    (h2 : hasFmField ("description:".toList) (rustLines content) = true) :
    transform_skill_file content skill_name = some content ∧
    (transform_skill_file content skill_name).bind
      (fun y => transform_skill_file y skill_name) = some content := by
  have hm : transform_skill_file content skill_name = some content := by
    rw [transform_skill_file]
    simp only [h0, h1, h2, if_pos rfl, and_self, if_true]
  exact ⟨hm, by rw [hm, Option.some_bind, hm]⟩

def c1File : Str := "---\nname: a\ndescription: b\n---\nbody".toList

theorem C1_frontmatter_normalization_idempotent_witness :
    transform_skill_file c1File ("x".toList) = some c1File ∧
    (transform_skill_file c1File ("x".toList)).bind
      (fun y => transform_skill_file y ("x".toList)) = some c1File :=
  C1_frontmatter_normalization_idempotent c1File ("x".toList)
    (by decide) (by decide) (by decide)

/-- The `{skills-root(T)}` column of the destination layout table, as the
spec enumerates it. -/
def specSkillsRoot : Tool → List Str
  | .Claude => [".claude".toList, "skills".toList]
  | .OpenCode => [".opencode".toList, "skills".toList]
  | .Cursor => [".cursor".toList, "skills".toList]
  | .Codex => [".codex".toList, "skills".toList]

/-- C2: for every tool, bundle name and Skill artifact, `write_file` returns
the destination path `{skills-root(T)}/{bundle}-{name}/SKILL.md` exactly as
the layout table enumerates. -/
theorem C2_skill_destination_layout (tool : Tool) (target : List Str) (b n : Str)
    (p : List Str) (sd : Option (List Str)) (content : Str) :
    (write_file tool target b ⟨n, p, .Skill, sd⟩ content).1 =
      target ++ specSkillsRoot tool ++ [b ++ "-".toList ++ n, "SKILL.md".toList] := by
  cases tool <;>
    simp [write_file, write_claude, write_opencode, write_cursor, write_codex, specSkillsRoot]

def c3Src : Str := "---\ntools: Read, NotebookRead\n---\nbody\n".toList

unseal dropToolsPfx in
/-- C3 counterexample: converting `tools: Read, NotebookRead` emits the
enabled entry `  read: true` twice (`Read` and `NotebookRead` both map to
`read`), so the conversion does not produce one enabled entry per distinct
mapped capability. -/
theorem C3_distinct_entries_counterexample :
    (transform_agent_file c3Src).map
        (fun o => (rustLines o).count ("  read: true".toList)) = some 2 ∧
      (2 : Nat) ≠ 1 :=
  ⟨by decide, by decide⟩

/-- C3 amended: the A-to-B conversion emits one enabled entry per item of the
comma-separated list (its mapped name), so distinct items mapping to the same
capability produce duplicate entries; and the B-to-A conversion keeps exactly
the entries set `true`, in order — every capability explicitly set to `false`
contributes nothing to the comma-separated list. -/
theorem C3_capability_conversion :
    (∀ ts body : List Str, 2 ≤ ts.length → (∀ t ∈ ts, GoodToolName t) →
      (∀ b ∈ body, GoodBodyLine b) →
      transform_agent_file
          (unlines (["---".toList, "tools: ".toList ++ joinCommaSpace ts,
            "---".toList] ++ body)) =
        some (unlines (["---".toList, "tools:".toList]
          ++ ts.map (fun t => "  ".toList ++ claude_to_opencode_tool t ++ ": true".toList)
          ++ ["---".toList] ++ body))) ∧
    (∀ es : List (Str × Bool), (∀ q ∈ es, GoodCapName q.1) →
      collectTools (es.map renderToolEntry) =
        ((es.filter (fun q => q.2)).map (fun q => opencode_to_claude_tool q.1), [])) :=
  ⟨fun ts body h1 h2 h3 => transformAgent_comma_eq ts body h1 h2 h3,
   fun es h => collectTools_block es h⟩

theorem C3_capability_conversion_witness :
    transform_agent_file
        (unlines (["---".toList,
          "tools: ".toList ++ joinCommaSpace ["Read".toList, "NotebookRead".toList],
          "---".toList] ++ ["b".toList])) =
      some (unlines (["---".toList, "tools:".toList]
        ++ ["Read".toList, "NotebookRead".toList].map
          (fun t => "  ".toList ++ claude_to_opencode_tool t ++ ": true".toList)
        ++ ["---".toList] ++ ["b".toList])) ∧
    collectTools ([("read".toList, true), ("write".toList, false)].map renderToolEntry) =
      (([("read".toList, true), ("write".toList, false)].filter (fun q => q.2)).map
        (fun q => opencode_to_claude_tool q.1), []) :=
  ⟨C3_capability_conversion.1 ["Read".toList, "NotebookRead".toList] ["b".toList]
      (by decide) (by decide) (by decide),
   C3_capability_conversion.2 [("read".toList, true), ("write".toList, false)] (by decide)⟩

unseal dropToolsPfx in
/-- C4 counterexample: the unknown capability name `CustomMCP` passes through
the A-to-B remapping with its original casing, not lower-cased. -/
theorem C4_lowercase_counterexample :
    claude_to_opencode_tool ("CustomMCP".toList) = "CustomMCP".toList ∧
    "CustomMCP".toList ≠ "custommcp".toList ∧
    (transform_agent_file ("---\ntools: Read, CustomMCP\n---\nC\n".toList)).map
        (fun o => ((rustLines o).contains ("  CustomMCP: true".toList),
          (rustLines o).contains ("  custommcp: true".toList))) = some (true, false) :=
  ⟨by decide, by decide, by decide⟩

theorem mapped_tool_no_newline {u : Str} (h : GoodToolName u) :
    '\n' ∉ claude_to_opencode_tool u := by
  unfold claude_to_opencode_tool
  rcases hf : claudeToOpencodeTable.find? (fun p => decide (p.1 = u)) with _ | ⟨k, v⟩
  · rw [hf]
    simpa using h.2.2.1
  · have hm := List.mem_of_find?_eq_some hf
    rw [hf]
    simp only [Option.map_some', Option.getD_some]
    have hall : ∀ q ∈ claudeToOpencodeTable, '\n' ∉ q.2 := by decide
    exact hall (k, v) hm

/-- C4 amended: a capability name not in the forward mapping table passes
through the A-to-B remapping unchanged (as-is, with a warning on stderr)
rather than being dropped, and every item of a comma-separated tools list
contributes its own enabled entry to the output — no name is silently
dropped. -/
theorem C4_unknown_tool_passthrough :
    (∀ t : Str, t ∉ claudeToOpencodeTable.map Prod.fst →
      claude_to_opencode_tool t = t) ∧
    (∀ ts body : List Str, 2 ≤ ts.length → (∀ t ∈ ts, GoodToolName t) →
      (∀ b ∈ body, GoodBodyLine b) → ∀ t ∈ ts,
      ("  ".toList ++ claude_to_opencode_tool t ++ ": true".toList) ∈
        rustLines ((transform_agent_file
          (unlines (["---".toList, "tools: ".toList ++ joinCommaSpace ts,
            "---".toList] ++ body))).getD [])) := by
  constructor
  · intro t ht
    unfold claude_to_opencode_tool
    have hnone : claudeToOpencodeTable.find? (fun p => decide (p.1 = t)) = none := by
      apply List.find?_eq_none.mpr
      intro q hq
      simp only [decide_eq_true_eq]
      intro he
      exact ht (List.mem_map.mpr ⟨q, hq, he⟩)
    rw [hnone]
    rfl
  · intro ts body h1 h2 h3 t ht
    rw [transformAgent_comma_eq ts body h1 h2 h3, Option.getD_some,
      rustLines_unlines ?hnl]
    case hnl =>
      intro l hl
      simp only [List.append_assoc, List.cons_append, List.nil_append,
        List.mem_cons, List.mem_append] at hl
      rcases hl with rfl | rfl | hl | hl
      · decide
      · decide
      · rcases List.mem_map.mp hl with ⟨u, hu, rfl⟩
        intro hm
        rcases List.mem_append.mp hm with hm | hm
        · exact (by decide : '\n' ∉ ("  ".toList)) hm
        · rcases List.mem_append.mp hm with hm | hm
          · exact mapped_tool_no_newline (h2 u hu) hm
          · exact (by decide : '\n' ∉ (": true".toList)) hm
      · rcases hl with rfl | hl
        · decide
        · exact (h3 _ hl).2.1
    apply List.mem_map.mpr
    refine ⟨"  ".toList ++ claude_to_opencode_tool t ++ ": true".toList, ?_, ?_⟩
    · simp only [List.append_assoc, List.cons_append, List.nil_append, List.mem_cons,
        List.mem_append]
      right; right; left
      exact List.mem_map.mpr ⟨t, ht, by simp [List.append_assoc]⟩
    · apply stripCR_eq_self
      rw [List.append_assoc, List.getLast?_append_of_ne_nil _ (by simp),
        List.getLast?_append_of_ne_nil _ (by decide)]
      decide

theorem C4_unknown_tool_passthrough_witness :
    claude_to_opencode_tool ("CustomMCP".toList) = "CustomMCP".toList ∧
    ("  ".toList ++ claude_to_opencode_tool ("CustomMCP".toList) ++ ": true".toList) ∈
      rustLines ((transform_agent_file
        (unlines (["---".toList,
          "tools: ".toList ++ joinCommaSpace ["Read".toList, "CustomMCP".toList],
          "---".toList] ++ []))).getD []) :=
  ⟨C4_unknown_tool_passthrough.1 ("CustomMCP".toList) (by decide),
   C4_unknown_tool_passthrough.2 ["Read".toList, "CustomMCP".toList] [] (by decide)
     (by decide) (by decide) ("CustomMCP".toList) (by decide)⟩

def c5Text : Str := List.replicate 98 'é' ++ List.replicate 10 'a'

/-- C5 counterexample: a text of 108 characters (but 206 UTF-8 bytes) is not
returned unchanged — `truncate_description` measures Rust's byte length, not
characters, so it truncates this ≤ 200-character text. -/
theorem C5_char_count_counterexample :
    c5Text.length ≤ 200 ∧
    truncate_description c5Text ≠ some c5Text ∧
    truncate_description c5Text =
      some ((List.replicate 98 'é' ++ ['a']) ++ "...".toList) :=
  ⟨by decide, by decide, by decide⟩

theorem utf8Len_append (a b : Str) : utf8Len (a ++ b) = utf8Len a + utf8Len b := by
  simp [utf8Len]

/-- C5 amended: lengths are UTF-8 byte lengths.  Text of at most 200 bytes is
returned unchanged; longer text is cut at byte 197 — when that offset is a
character boundary — and `...` is appended, producing a prefix of the text of
exactly 200 bytes ending in `...` (a non-boundary offset panics). -/
theorem C5_truncation_in_bytes :
    (∀ text : Str, utf8Len text ≤ 200 → truncate_description text = some text) ∧
    (∀ text r : Str, 200 < utf8Len text → takeBytes text 197 = some r →
      truncate_description text = some (r ++ "...".toList) ∧
      utf8Len (r ++ "...".toList) = 200 ∧ r <+: text) := by
  constructor
  · intro t h
    rw [truncate_description, if_pos h]
  · intro t r h hr
    refine ⟨?_, ?_, takeBytes_pref hr⟩
    · rw [truncate_description, if_neg (by omega), hr]
      rfl
    · have h197 := takeBytes_utf8Len hr
      have hdots : utf8Len ("...".toList) = 3 := by decide
      rw [utf8Len_append, h197, hdots]

theorem C5_truncation_in_bytes_witness :
    truncate_description (List.replicate 250 'A') =
        some (List.replicate 197 'A' ++ "...".toList) ∧
      utf8Len (List.replicate 197 'A' ++ "...".toList) = 200 ∧
      (List.replicate 197 'A') <+: (List.replicate 250 'A') :=
  C5_truncation_in_bytes.2 (List.replicate 250 'A') (List.replicate 197 'A')
    (by decide) (by decide)

/-- C6 counterexample: a first non-blank body line carrying surrounding
whitespace is emitted trimmed, not verbatim. -/
theorem C6_verbatim_counterexample :
    extract_description_from_body [[], "  Does X  ".toList] 0 = some ("Does X".toList) ∧
    ("Does X".toList : Str) ≠ "  Does X  ".toList :=
  ⟨by decide, by decide⟩

theorem extractDescAux_skip {pre : List Str} (tail : List Str)
    (hpre : ∀ p ∈ pre, rustTrim p = [] ∨ rustTrim p = "---".toList) :
    extractDescAux (pre ++ tail) = extractDescAux tail := by
  induction pre with
  | nil => rfl
  | cons p ps ih =>
    rw [List.cons_append, extractDescAux, if_pos (hpre p (List.mem_cons_self p ps))]
    exact ih (fun q hq => hpre q (List.mem_cons_of_mem p hq))

/-- C6 amended: the synthesized description is the first line whose trimmed
form is neither empty nor `---`: for a heading, the text with the leading `#`
run and surrounding whitespace stripped; otherwise the line with surrounding
whitespace *trimmed* (not verbatim) — both then byte-truncated; an all-blank
body falls back to `Skill instructions`; and `skills/helper.md` starting with
`# Helper` yields `name: b-helper` and `description: "Helper"`. -/
theorem C6_description_synthesis (pre : List Str) (l : Str) (rest ls : List Str)
    (hpre : ∀ p ∈ pre, rustTrim p = [] ∨ rustTrim p = "---".toList)
    (hl : ¬ (rustTrim l = [] ∨ rustTrim l = "---".toList))
    (hblank : ∀ p ∈ ls, rustTrim p = [] ∨ rustTrim p = "---".toList) :
    (extract_description_from_body (pre ++ l :: rest) 0 =
      if (rustTrim l).headD ' ' = '#' then
        truncate_description (rustTrim ((rustTrim l).dropWhile (· = '#')))
      else truncate_description (rustTrim l)) ∧
    extract_description_from_body ls 0 = some ("Skill instructions".toList) ∧
    transform_skill_file ("# Helper\n\nDoes X".toList) ("b-helper".toList) =
      some ("---\nname: b-helper\ndescription: \"Helper\"\n---\n# Helper\n\nDoes X".toList) := by
  refine ⟨?_, ?_, by decide⟩
  · rw [extract_description_from_body, List.drop_zero, extractDescAux_skip _ hpre,
      extractDescAux, if_neg hl]
  · rw [extract_description_from_body, List.drop_zero, ← List.append_nil ls,
      extractDescAux_skip _ hblank]
    rfl

theorem C6_description_synthesis_witness :
    (extract_description_from_body ([[]] ++ "  Does X  ".toList :: []) 0 =
      if (rustTrim ("  Does X  ".toList)).headD ' ' = '#' then
        truncate_description (rustTrim ((rustTrim ("  Does X  ".toList)).dropWhile (· = '#')))
      else truncate_description (rustTrim ("  Does X  ".toList))) ∧
    extract_description_from_body [] 0 = some ("Skill instructions".toList) ∧
    transform_skill_file ("# Helper\n\nDoes X".toList) ("b-helper".toList) =
      some ("---\nname: b-helper\ndescription: \"Helper\"\n---\n# Helper\n\nDoes X".toList) :=
  C6_description_synthesis [[]] ("  Does X  ".toList) [] []
    (by decide) (by decide) (by decide)

theorem mem_rustLines_unlines {ls : List Str} {l₀ : Str} (hnl : ∀ l ∈ ls, '\n' ∉ l)
    (hmem : l₀ ∈ ls) (hcr : stripCR l₀ = l₀) : l₀ ∈ rustLines (unlines ls) := by
  rw [rustLines_unlines hnl]
  exact List.mem_map.mpr ⟨l₀, hmem, hcr⟩

theorem pref_mem_rustLines_unlines {ls : List Str} {l p : Str}
    (hnl : ∀ l' ∈ ls, '\n' ∉ l') (hmem : l ∈ ls) (hp : p.isPrefixOf l = true)
    (hrp : '\r' ∉ p) : ∃ l' ∈ rustLines (unlines ls), p.isPrefixOf l' = true := by
  rw [rustLines_unlines hnl]
  exact ⟨stripCR l, List.mem_map.mpr ⟨l, hmem, rfl⟩, isPrefixOf_stripCR hp hrp⟩

theorem fmRegion_subset (lines : List Str) : fmRegion lines ⊆ lines := by
  unfold fmRegion
  intro l hl
  rcases hc : fmClose lines with _ | e
  · rw [hc] at hl
    exact List.drop_subset 1 lines hl
  · rw [hc] at hl
    exact List.drop_subset 1 lines (List.take_subset _ _ hl)

/-- C7 counterexample: a Rule artifact written to Claude's Rule destination is
normalized by `transform_skill_file`, which adds only `name`/`description`:
the emitted frontmatter carries no `alwaysApply` field at all. -/
theorem C7_claude_rule_counterexample :
    ((write_claude [] ("b".toList) ⟨"r".toList, [], .Rule, none⟩ ("# R".toList)).2).map
        (fun o => (rustLines o).any (fun l => ("alwaysApply:".toList).isPrefixOf l)) =
      some false := by decide

/-- C7 amended: only the Cursor and Codex Rule destinations run
`transform_cursor_rule`, whose output always carries an `alwaysApply`
frontmatter line, defaulting to `alwaysApply: false` when the source
frontmatter has none; the Claude and OpenCode Rule destinations run the
skill normalization, which does not add the field. -/
theorem C7_alwaysApply_on_cursor_and_codex_rules :
    (∀ (target : List Str) (b : Str) (sk : SkillFile) (content : Str),
      sk.skill_type = SkillType.Rule →
      (write_cursor target b sk content).2 = transform_cursor_rule content ∧
      (write_codex target b sk content).2 = transform_cursor_rule content) ∧
    (∀ content out : Str, transform_cursor_rule content = some out →
      (∃ l ∈ rustLines out, ("alwaysApply:".toList).isPrefixOf l = true) ∧
      (hasFmField ("alwaysApply:".toList) (rustLines content) = false →
        "alwaysApply: false".toList ∈ rustLines out)) := by
  constructor
  · rintro target b ⟨n, p, st, sd⟩ content h
    dsimp only at h
    subst h
    exact ⟨rfl, rfl⟩
  · intro content out h
    rw [transform_cursor_rule] at h
    by_cases hhead : (rustLines content).head? = some ("---".toList)
    · simp only [hhead, if_pos rfl, if_true] at h
      by_cases hdesc : hasFmField ("description:".toList) (rustLines content) = true
      · by_cases halw : hasFmField ("alwaysApply:".toList) (rustLines content) = true
        · -- both present: output is the input content unchanged
          simp only [hdesc, halw, and_self, if_true, Option.some_inj] at h
          subst h
          rcases List.any_eq_true.mp halw with ⟨l, hl, hp⟩
          refine ⟨⟨l, fmRegion_subset _ hl, hp⟩, fun hfalse => ?_⟩
          rw [halw] at hfalse
          cases hfalse
        · -- description present, alwaysApply absent
          simp only [hdesc, halw, and_false, if_false, Bool.false_eq_true] at h
          rcases hc : fmClose (rustLines content) with _ | e
          · rw [hc] at h
            cases h
          · rw [hc] at h
            simp only [hdesc, if_true, Option.some_inj, if_pos rfl] at h
            have hnl : ∀ l ∈ ("---".toList ::
                (((rustLines content).drop 1).take (e - 1)
                  ++ "alwaysApply: false".toList :: (rustLines content).drop e)), '\n' ∉ l := by
              intro l hl
              rcases List.mem_cons.mp hl with rfl | hl
              · decide
              · rcases List.mem_append.mp hl with hl | hl
                · exact mem_rustLines_no_newline l
                    (List.drop_subset 1 _ (List.take_subset _ _ hl))
                · rcases List.mem_cons.mp hl with rfl | hl
                  · decide
                  · exact mem_rustLines_no_newline l (List.drop_subset e _ hl)
            subst h
            simp only [List.append_assoc, List.cons_append, List.nil_append,
              List.append_nil]
            constructor
            · exact @pref_mem_rustLines_unlines _ ("alwaysApply: false".toList)
                ("alwaysApply:".toList) hnl (by simp) (by decide) (by decide)
            · intro _
              refine mem_rustLines_unlines hnl ?_ (by decide)
              simp
      · -- description absent
        simp only [hdesc, false_and, if_false, Bool.false_eq_true] at h
        rcases hc : fmClose (rustLines content) with _ | e
        · rw [hc] at h
          cases h
        · rw [hc] at h
          simp only [hdesc, if_false, Bool.false_eq_true] at h
          rcases Option.map_eq_some'.mp h with ⟨d, hd, hout⟩
          have hdnl : '\n' ∉ d :=
            extractDescAux_no_newline
              (fun l hl => mem_rustLines_no_newline l (List.drop_subset _ _ hl)) hd
          by_cases halw : hasFmField ("alwaysApply:".toList) (rustLines content) = true
          · -- alwaysApply already present among the copied frontmatter lines
            simp only [halw, if_true] at hout
            have hnl : ∀ l ∈ ("---".toList ::
                (((rustLines content).drop 1).take (e - 1)
                  ++ ("description: \"".toList ++ (d ++ "\"".toList)) ::
                    (rustLines content).drop e)), '\n' ∉ l := by
              intro l hl
              rcases List.mem_cons.mp hl with rfl | hl
              · decide
              · rcases List.mem_append.mp hl with hl | hl
                · exact mem_rustLines_no_newline l
                    (List.drop_subset 1 _ (List.take_subset _ _ hl))
                · rcases List.mem_cons.mp hl with rfl | hl
                  · intro hm
                    rcases List.mem_append.mp hm with hm | hm
                    · exact (by decide : '\n' ∉ ("description: \"".toList)) hm
                    · rcases List.mem_append.mp hm with hm | hm
                      · exact hdnl hm
                      · exact (by decide : '\n' ∉ ("\"".toList)) hm
                  · exact mem_rustLines_no_newline l (List.drop_subset e _ hl)
            rcases List.any_eq_true.mp halw with ⟨l, hl, hp⟩
            have hlcopied : l ∈ ((rustLines content).drop 1).take (e - 1) := by
              have hfr : fmRegion (rustLines content) =
                  ((rustLines content).drop 1).take (e - 1) := by
                unfold fmRegion
                rw [hc]
              rw [← hfr]
              exact hl
            subst hout
            simp only [List.append_assoc, List.cons_append, List.nil_append,
              List.append_nil]
            refine ⟨pref_mem_rustLines_unlines hnl ?_ hp (by decide), fun hfalse => ?_⟩
            · exact List.mem_cons_of_mem _ (List.mem_append.mpr (Or.inl hlcopied))
            · rw [halw] at hfalse
              cases hfalse
          · -- alwaysApply absent: the default line is appended
            simp only [halw, if_false, Bool.false_eq_true] at hout
            have hnl : ∀ l ∈ ("---".toList ::
                (((rustLines content).drop 1).take (e - 1)
                  ++ ("description: \"".toList ++ (d ++ "\"".toList)) ::
                    "alwaysApply: false".toList :: (rustLines content).drop e)), '\n' ∉ l := by
              intro l hl
              rcases List.mem_cons.mp hl with rfl | hl
              · decide
              · rcases List.mem_append.mp hl with hl | hl
                · exact mem_rustLines_no_newline l
                    (List.drop_subset 1 _ (List.take_subset _ _ hl))
                · rcases List.mem_cons.mp hl with rfl | hl
                  · intro hm
                    rcases List.mem_append.mp hm with hm | hm
                    · exact (by decide : '\n' ∉ ("description: \"".toList)) hm
                    · rcases List.mem_append.mp hm with hm | hm
                      · exact hdnl hm
                      · exact (by decide : '\n' ∉ ("\"".toList)) hm
                  · rcases List.mem_cons.mp hl with rfl | hl
                    · decide
                    · exact mem_rustLines_no_newline l (List.drop_subset e _ hl)
            subst hout
            simp only [List.append_assoc, List.cons_append, List.nil_append,
              List.append_nil]
            constructor
            · exact @pref_mem_rustLines_unlines _ ("alwaysApply: false".toList)
                ("alwaysApply:".toList) hnl (by simp) (by decide) (by decide)
            · intro _
              refine mem_rustLines_unlines hnl ?_ (by decide)
              simp
    · -- no frontmatter at all: the Cursor-rule header is synthesized
      simp only [hhead, if_neg, if_false] at h
      rcases Option.map_eq_some'.mp h with ⟨d, hd, hout⟩
      have hdnl : '\n' ∉ d :=
        extractDescAux_no_newline
          (fun l hl => mem_rustLines_no_newline l (List.drop_subset _ _ hl)) hd
      have hshape : out = "---".toList ++ '\n' ::
          (("description: \"".toList ++ d ++ "\"".toList) ++ '\n' ::
            ("alwaysApply: false".toList ++ '\n' ::
              ("---".toList ++ '\n' :: content))) := by
        rw [← hout]
        simp [List.append_assoc]
      have hsplit : splitOnChar '\n' out =
          "---".toList :: ("description: \"".toList ++ d ++ "\"".toList) ::
            "alwaysApply: false".toList :: "---".toList :: splitOnChar '\n' content := by
        rw [hshape, splitOnChar_append_cons _ (by decide),
          splitOnChar_append_cons _ ?hdesc, splitOnChar_append_cons _ (by decide),
          splitOnChar_append_cons _ (by decide)]
        case hdesc =>
          intro hm
          rcases List.mem_append.mp hm with hm | hm
          · rcases List.mem_append.mp hm with hm | hm
            · exact (by decide : '\n' ∉ ("description: \"".toList)) hm
            · exact hdnl hm
          · exact (by decide : '\n' ∉ ("\"".toList)) hm
      have hmem : "alwaysApply: false".toList ∈ rustLines out := by
        rw [rustLines, hsplit, dropFinalEmpty_cons (by simp),
          dropFinalEmpty_cons (by simp),
          dropFinalEmpty_cons (by simp [splitOnChar_ne_nil])]
        refine List.mem_map.mpr ⟨"alwaysApply: false".toList, ?_, by decide⟩
        simp
      exact ⟨⟨"alwaysApply: false".toList, hmem, by decide⟩, fun _ => hmem⟩

theorem C7_alwaysApply_on_cursor_and_codex_rules_witness :
    (write_cursor [] ("b".toList) ⟨"r".toList, [], .Rule, none⟩ ("# R".toList)).2 =
        transform_cursor_rule ("# R".toList) ∧
      (∃ l ∈ rustLines ("---\ndescription: \"R\"\nalwaysApply: false\n---\n# R".toList),
        ("alwaysApply:".toList).isPrefixOf l = true) ∧
      "alwaysApply: false".toList ∈
        rustLines ("---\ndescription: \"R\"\nalwaysApply: false\n---\n# R".toList) :=
  ⟨(C7_alwaysApply_on_cursor_and_codex_rules.1 [] ("b".toList)
      ⟨"r".toList, [], .Rule, none⟩ ("# R".toList) rfl).1,
   (C7_alwaysApply_on_cursor_and_codex_rules.2 ("# R".toList)
      ("---\ndescription: \"R\"\nalwaysApply: false\n---\n# R".toList) (by decide)).1,
   (C7_alwaysApply_on_cursor_and_codex_rules.2 ("# R".toList)
      ("---\ndescription: \"R\"\nalwaysApply: false\n---\n# R".toList) (by decide)).2
     (by decide)⟩

/-! ### Sortedness of every discovery strategy (C8) -/

theorem scan_type_sorted (path : List Str) (es : List Entry) (t : SkillType) :
    FilesSorted (scan_type path es t) := by
  unfold scan_type
  rcases lookupDir es t.dir_name with _ | sub
  · exact List.Pairwise.nil
  · exact sortFiles_sorted _

theorem scan_component_dir_sorted (path : List Str) (es : List Entry) (t : SkillType) :
    FilesSorted (scan_component_dir path es t) := sortFiles_sorted _

/-- Every artifact of the bundle carries the bundle's own name. -/
def AllNamed (b : Bundle) : Prop :=
  (∀ f ∈ b.skills, f.name = b.name) ∧ (∀ f ∈ b.agents, f.name = b.name) ∧
  (∀ f ∈ b.commands, f.name = b.name) ∧ (∀ f ∈ b.rules, f.name = b.name)

theorem allNamed_sorted {b : Bundle} (h : AllNamed b) : BundleSorted b :=
  ⟨constName_sorted h.1, constName_sorted h.2.1,
   constName_sorted h.2.2.1, constName_sorted h.2.2.2⟩

theorem pushArtifact_allNamed {b : Bundle} {t : SkillType} {f : SkillFile}
    (h : AllNamed b) (hf : f.name = b.name) : AllNamed (pushArtifact b t f) := by
  have hsk : ∀ (l : List SkillFile), (∀ g ∈ l, SkillFile.name g = b.name) →
      ∀ g ∈ l ++ [f], SkillFile.name g = b.name := by
    intro l hl g hg
    rcases List.mem_append.mp hg with hg | hg
    · exact hl g hg
    · simp only [List.mem_singleton] at hg
      subst hg
      exact hf
  cases t <;>
    exact ⟨by first | exact hsk _ h.1 | exact h.1,
      by first | exact hsk _ h.2.1 | exact h.2.1,
      by first | exact hsk _ h.2.2.1 | exact h.2.2.1,
      by first | exact hsk _ h.2.2.2 | exact h.2.2.2⟩

theorem upsertResource_allNamed {bs : List Bundle} {path : List Str}
    {meta : ResourceMeta} {t : SkillType} {f : SkillFile}
    (h : ∀ b ∈ bs, AllNamed b) :
    ∀ b ∈ upsertResource bs path meta t f, AllNamed b := by
  unfold upsertResource
  split
  · intro b hb
    rcases List.mem_map.mp hb with ⟨b', hb', rfl⟩
    by_cases he : b'.name = f.name
    · simp only [he, if_pos rfl, if_true]
      exact pushArtifact_allNamed (h b' hb') he.symm
    · simp only [he, if_false]
      exact h b' hb'
  · intro b hb
    rcases List.mem_append.mp hb with hb | hb
    · exact h b hb
    · simp only [List.mem_singleton] at hb
      subst hb
      exact pushArtifact_allNamed ⟨by simp, by simp, by simp, by simp⟩ rfl

theorem scanResTypeDir_allNamed (t : SkillType) (typePath : List Str) (es : List Entry)
    {bs : List Bundle} (h : ∀ b ∈ bs, AllNamed b) :
    ∀ b ∈ scanResTypeDir t typePath es bs, AllNamed b := by
  unfold scanResTypeDir
  induction es generalizing bs with
  | nil => exact h
  | cons e rest ih =>
    rw [List.foldl_cons]
    apply ih
    cases e with
    | file _ _ => exact h
    | dir fn sub =>
      dsimp only
      split
      · exact h
      · rcases hscan : scan_resource_folder_with_meta sub (typePath ++ [fn]) t fn with _ | ⟨f, m⟩
        · exact h
        · exact upsertResource_allNamed h

theorem list_from_resources_allNamed (rootPath : List Str) (es : List Entry) :
    ∀ b ∈ list_from_resources_path rootPath es, AllNamed b := by
  unfold list_from_resources_path
  rcases lookupDir es ("resources".toList) with _ | res
  · simp
  · intro b hb
    have hb' := List.mem_mergeSort.mp hb
    revert hb'
    generalize hgoal : ([SkillType.Skill, .Agent, .Command, .Rule] : List SkillType) = types
    clear hgoal
    have : ∀ (types : List SkillType) (init : List Bundle), (∀ b ∈ init, AllNamed b) →
        b ∈ types.foldl (fun bs t =>
          (t.dir_name :: t.alt_dir_names).foldl (fun bs dn =>
            match lookupDir res dn with
            | none => bs
            | some es => scanResTypeDir t (rootPath ++ ["resources".toList, dn]) es bs) bs) init →
        AllNamed b := by
      intro types
      induction types with
      | nil => exact fun init h hm => h b hm
      | cons t ts ih =>
        intro init hinit hm
        rw [List.foldl_cons] at hm
        refine ih _ ?_ hm
        have hdirs : ∀ (dns : List Str) (acc : List Bundle), (∀ b ∈ acc, AllNamed b) →
            ∀ b' ∈ dns.foldl (fun bs dn =>
              match lookupDir res dn with
              | none => bs
              | some es => scanResTypeDir t (rootPath ++ ["resources".toList, dn]) es bs) acc,
            AllNamed b' := by
          intro dns
          induction dns with
          | nil => exact fun acc h b' hb' => h b' hb'
          | cons dn dns ihd =>
            intro acc hacc
            rw [List.foldl_cons]
            apply ihd
            rcases lookupDir res dn with _ | sub
            · exact hacc
            · exact scanResTypeDir_allNamed t _ _ hacc
        exact hdirs _ init hinit
    exact fun hm => this _ [] (by simp) hm

/-- C8: every Bundle produced by any of the four discovery strategies (flat
scan, resources format, marketplace format, manifest-declared) has all four
artifact lists sorted in ascending order by artifact name. -/
theorem C8_bundle_lists_sorted :
    (∀ (path : List Str) (es : List Entry) (b : Bundle),
      Bundle.from_path path es = some b → BundleSorted b) ∧
    (∀ (rootPath : List Str) (es : List Entry) (b : Bundle),
      b ∈ list_from_resources_path rootPath es → BundleSorted b) ∧
    (∀ (rootPath : List Str) (es : List Entry) (b : Bundle),
      b ∈ list_from_anthropic_path rootPath es → BundleSorted b) ∧
    (∀ (root : List Str) (es : List Entry) (decl : BundleDeclaration),
      BundleSorted (bundle_from_declaration root es decl)) := by
  refine ⟨?_, ?_, ?_, ?_⟩
  · intro path es b h
    unfold Bundle.from_path at h
    rcases Option.map_eq_some'.mp h with ⟨nm, _, rfl⟩
    exact ⟨scan_type_sorted _ _ _, scan_type_sorted _ _ _,
      scan_type_sorted _ _ _, scan_type_sorted _ _ _⟩
  · intro rootPath es b hb
    exact allNamed_sorted (list_from_resources_allNamed rootPath es b hb)
  · intro rootPath es b hb
    unfold list_from_anthropic_path at hb
    rcases hsk : lookupDir es ("skills".toList) with _ | skillsEs
    · rw [hsk] at hb
      simp at hb
    · rw [hsk] at hb
      have hb' := List.mem_mergeSort.mp hb
      rcases List.mem_filterMap.mp hb' with ⟨e, _, hmk⟩
      cases e with
      | file _ _ => simp at hmk
      | dir fn sub =>
        dsimp only at hmk
        split at hmk
        · cases hmk
        · rcases hlf : lookupFile sub ("SKILL.md".toList) with _ | c
          · rw [hlf] at hmk
            cases hmk
          · rw [hlf] at hmk
            simp only [Option.some_inj] at hmk
            subst hmk
            exact ⟨List.pairwise_singleton _ _, List.Pairwise.nil,
              List.Pairwise.nil, List.Pairwise.nil⟩
  · intro root es decl
    unfold bundle_from_declaration
    dsimp only
    refine ⟨?_, ?_, ?_, ?_⟩
    · rcases hlp : lookupPath es (decl.relPath ++ decl.paths.dirFor SkillType.Skill) with _ | sub
      · exact List.Pairwise.nil
      · exact scan_component_dir_sorted _ _ _
    · rcases hlp : lookupPath es (decl.relPath ++ decl.paths.dirFor SkillType.Agent) with _ | sub
      · exact List.Pairwise.nil
      · exact scan_component_dir_sorted _ _ _
    · rcases hlp : lookupPath es (decl.relPath ++ decl.paths.dirFor SkillType.Command) with _ | sub
      · exact List.Pairwise.nil
      · exact scan_component_dir_sorted _ _ _
    · rcases hlp : lookupPath es (decl.relPath ++ decl.paths.dirFor SkillType.Rule) with _ | sub
      · exact List.Pairwise.nil
      · exact scan_component_dir_sorted _ _ _


def c8Fs : List Entry :=
  [.dir ("commands".toList) [.file ("b.md".toList) ("B".toList), .file ("a.md".toList) ("A".toList)]]

def c8Bundle : Bundle :=
  { name := "x".toList
    path := ["x".toList]
    skills := []
    agents := []
    commands := [⟨"a".toList, ["x".toList, "commands".toList, "a.md".toList], .Command, none⟩,
                 ⟨"b".toList, ["x".toList, "commands".toList, "b.md".toList], .Command, none⟩]
    rules := []
    meta := ⟨none, none⟩ }

def c8ResFs : List Entry :=
  [.dir ("resources".toList) [.dir ("skills".toList)
    [.dir ("helper".toList) [.file ("skill.md".toList) ("# H".toList)]]]]

def c8ResBundle : Bundle :=
  { name := "helper".toList
    path := ["resources".toList, "skills".toList, "helper".toList]
    skills := [⟨"helper".toList,
      ["resources".toList, "skills".toList, "helper".toList, "skill.md".toList], .Skill, none⟩]
    agents := [], commands := [], rules := []
    meta := ⟨none, none⟩ }

def c8MktFs : List Entry :=
  [.dir ("skills".toList) [.dir ("helper".toList) [.file ("SKILL.md".toList) ("# H".toList)]]]

def c8MktBundle : Bundle :=
  { name := "helper".toList
    path := ["skills".toList, "helper".toList]
    skills := [⟨"helper".toList,
      ["skills".toList, "helper".toList, "SKILL.md".toList], .Skill, none⟩]
    agents := [], commands := [], rules := []
    meta := ⟨none, none⟩ }

unseal List.merge List.mergeSort in
/-- Witness for C8 at concrete one-bundle filesystems for the flat,
resources and marketplace strategies. -/
theorem C8_bundle_lists_sorted_witness :
    BundleSorted c8Bundle ∧ BundleSorted c8ResBundle ∧ BundleSorted c8MktBundle :=
  ⟨C8_bundle_lists_sorted.1 (["x".toList]) c8Fs c8Bundle (by decide),
   C8_bundle_lists_sorted.2.1 [] c8ResFs c8ResBundle (by decide),
   C8_bundle_lists_sorted.2.2.1 [] c8MktFs c8MktBundle (by decide)⟩


/-! ### C9: write/discover round trip -/

theorem rustExtStem_md (n : Str) (h : n ≠ []) :
    rustExtStem (n ++ ['.', 'm', 'd']) = (n, some ['m', 'd']) := by
  have hidx : lastDotIdx (n ++ ['.', 'm', 'd']) = some n.length := by
    unfold lastDotIdx
    have hr : (n ++ ['.', 'm', 'd']).reverse = 'd' :: 'm' :: '.' :: n.reverse := by
      simp [List.reverse_append]
    rw [hr]
    rw [List.findIdx?_cons]
    norm_num
    exact ⟨2, by decide, by omega⟩
  unfold rustExtStem
  rw [hidx]
  rcases n with _ | ⟨a, as⟩
  · exact absurd rfl h
  · show ((a :: as ++ ['.', 'm', 'd']).take (a :: as).length,
      some ((a :: as ++ ['.', 'm', 'd']).drop ((a :: as).length + 1))) = _
    rw [List.take_left]
    have hd : (a :: as) ++ ['.', 'm', 'd'] = ((a :: as) ++ ['.']) ++ ['m', 'd'] := by
      simp
    rw [hd]
    have hlen : (a :: as).length + 1 = ((a :: as) ++ ['.']).length := by
      simp
    rw [hlen, List.drop_left]

theorem claudeWalk_single (typeRoot : List Str) (t : SkillType) (b n fileC : Str)
    (hn : n ≠ []) :
    claudeWalkSkills typeRoot t [.dir b [.file (n ++ ['.', 'm', 'd']) fileC]] =
      [⟨n, t, .Claude, typeRoot ++ [b, n ++ ['.', 'm', 'd']], some b⟩] := by
  have hmd : isMdFile (n ++ ['.', 'm', 'd']) = true := by
    unfold isMdFile
    rw [rustExtStem_md n hn]
    simp
  have hst : fileStem (n ++ ['.', 'm', 'd']) = n := by
    unfold fileStem
    rw [rustExtStem_md n hn]
  have hne : typeRoot ++ [b] ≠ typeRoot := by
    intro hEq
    have := congrArg List.length hEq
    simp at this
  unfold claudeWalkSkills
  simp [walkFiles, hmd, hst, hne, hn]

theorem folderBased_single (root : List Str) (canonical : Str) (t : SkillType)
    (tool : InstalledTool) (dn fileC : Str) (hdn : dn ≠ []) :
    discoverFolderBased root canonical t tool [.dir dn [.file canonical fileC]] =
      [⟨dn, t, tool, root ++ [dn, canonical], some dn⟩] := by
  unfold discoverFolderBased
  simp [entryExists, Entry.entryName, hdn]

/-- The content an OpenCode Skill write leaves on disk for bundle `b`,
skill `n`, source body `# X`. -/
def c9WrittenContent : Str :=
  (transform_skill_file ("# X".toList) ("b-n".toList)).getD []

/-- The directory tree consisting of exactly the file the OpenCode Skill
write produced (under `.opencode/skills/b-n/SKILL.md`). -/
def c9Fs : List Entry :=
  [.dir (".opencode".toList) [.dir ("skills".toList)
    [.dir ("b-n".toList) [.file ("SKILL.md".toList) c9WrittenContent]]]]

/-- C9 counterexample: `write_opencode` places a Skill at
`.opencode/skills/b-n/SKILL.md`, but `discover_installed` scans only the
singular `.opencode/skill` directory, so a discovery pass over exactly the
tree the writer produced reports no installed artifact at all. -/
theorem C9_opencode_mismatch_counterexample :
    (write_opencode [] ("b".toList) ⟨"n".toList, [], .Skill, none⟩ ("# X".toList)).1 =
      [".opencode".toList, "skills".toList, "b-n".toList, "SKILL.md".toList] ∧
    (write_opencode [] ("b".toList) ⟨"n".toList, [], .Skill, none⟩ ("# X".toList)).2 =
      some c9WrittenContent ∧
    discover_installed c9Fs = [] := by
  refine ⟨by decide, by decide, by decide⟩

/-- C9 (corrected): the write/discover round trip holds only for the
artifact kinds the discovery pass actually scans.  For Claude commands,
Claude agents, Cursor skills and Cursor rules, a discovery pass over
exactly the tree the writer produced reports one installed artifact whose
file path is the path the writer returned (and whose bundle field is
recovered from the path shape).  OpenCode and Codex writes, and Claude
skill/rule writes, are never rediscovered (see the counterexample). -/
theorem C9_write_discover_roundtrip (b n content fileC : Str) (p : List Str)
    (srcd : Option (List Str)) (hn : n ≠ []) :
    (discover_installed
      [.dir (".claude".toList) [.dir ("commands".toList)
        [.dir b [.file (n ++ ['.', 'm', 'd']) fileC]]]] =
      [⟨n, .Command, .Claude,
        (write_claude [] b ⟨n, p, .Command, srcd⟩ content).1, some b⟩]) ∧
    (discover_installed
      [.dir (".claude".toList) [.dir ("agents".toList)
        [.dir b [.file (n ++ ['.', 'm', 'd']) fileC]]]] =
      [⟨n, .Agent, .Claude,
        (write_claude [] b ⟨n, p, .Agent, srcd⟩ content).1, some b⟩]) ∧
    (discover_installed
      [.dir (".cursor".toList) [.dir ("skills".toList)
        [.dir (b ++ "-".toList ++ n) [.file ("SKILL.md".toList) fileC]]]] =
      [⟨b ++ "-".toList ++ n, .Skill, .Cursor,
        (write_cursor [] b ⟨n, p, .Skill, srcd⟩ content).1,
        some (b ++ "-".toList ++ n)⟩]) ∧
    (discover_installed
      [.dir (".cursor".toList) [.dir ("rules".toList)
        [.dir (b ++ "-".toList ++ n) [.file ("RULE.md".toList) fileC]]]] =
      [⟨b ++ "-".toList ++ n, .Rule, .Cursor,
        (write_cursor [] b ⟨n, p, .Rule, srcd⟩ content).1,
        some (b ++ "-".toList ++ n)⟩]) := by
  have hcomb : b ++ "-".toList ++ n ≠ [] := by simp
  refine ⟨?_, ?_, ?_, ?_⟩
  · have h1 : discover_installed
        [.dir (".claude".toList) [.dir ("commands".toList)
          [.dir b [.file (n ++ ['.', 'm', 'd']) fileC]]]] =
        ((claudeWalkSkills [".claude".toList, "commands".toList] SkillType.Command
          [.dir b [.file (n ++ ['.', 'm', 'd']) fileC]] ++ []) ++ []) ++ [] := rfl
    rw [h1, claudeWalk_single _ _ _ _ _ hn]
    simp [write_claude]
  · have h1 : discover_installed
        [.dir (".claude".toList) [.dir ("agents".toList)
          [.dir b [.file (n ++ ['.', 'm', 'd']) fileC]]]] =
        (([] ++ claudeWalkSkills [".claude".toList, "agents".toList] SkillType.Agent
          [.dir b [.file (n ++ ['.', 'm', 'd']) fileC]]) ++ []) ++ [] := rfl
    rw [h1, claudeWalk_single _ _ _ _ _ hn]
    simp [write_claude]
  · have h1 : discover_installed
        [.dir (".cursor".toList) [.dir ("skills".toList)
          [.dir (b ++ "-".toList ++ n) [.file ("SKILL.md".toList) fileC]]]] =
        ([] ++ []) ++
          (discoverFolderBased [".cursor".toList, "skills".toList] ("SKILL.md".toList)
            SkillType.Skill InstalledTool.Cursor
            [.dir (b ++ "-".toList ++ n) [.file ("SKILL.md".toList) fileC]] ++ []) := rfl
    rw [h1, folderBased_single _ _ _ _ _ _ hcomb]
    simp [write_cursor]
  · have h1 : discover_installed
        [.dir (".cursor".toList) [.dir ("rules".toList)
          [.dir (b ++ "-".toList ++ n) [.file ("RULE.md".toList) fileC]]]] =
        ([] ++ []) ++
          ([] ++ discoverFolderBased [".cursor".toList, "rules".toList] ("RULE.md".toList)
            SkillType.Rule InstalledTool.Cursor
            [.dir (b ++ "-".toList ++ n) [.file ("RULE.md".toList) fileC]]) := rfl
    rw [h1, folderBased_single _ _ _ _ _ _ hcomb]
    simp [write_cursor]

/-- Witness for C9 at bundle `bnd`, artifact `doc`. -/
theorem C9_write_discover_roundtrip_witness :
    (discover_installed
      [.dir (".claude".toList) [.dir ("commands".toList)
        [.dir ("bnd".toList) [.file (("doc".toList) ++ ['.', 'm', 'd']) ("hi".toList)]]]] =
      [⟨"doc".toList, .Command, .Claude,
        (write_claude [] ("bnd".toList) ⟨"doc".toList, [], .Command, none⟩ ("hi".toList)).1,
        some ("bnd".toList)⟩]) ∧
    (discover_installed
      [.dir (".claude".toList) [.dir ("agents".toList)
        [.dir ("bnd".toList) [.file (("doc".toList) ++ ['.', 'm', 'd']) ("hi".toList)]]]] =
      [⟨"doc".toList, .Agent, .Claude,
        (write_claude [] ("bnd".toList) ⟨"doc".toList, [], .Agent, none⟩ ("hi".toList)).1,
        some ("bnd".toList)⟩]) ∧
    (discover_installed
      [.dir (".cursor".toList) [.dir ("skills".toList)
        [.dir (("bnd".toList) ++ "-".toList ++ ("doc".toList))
          [.file ("SKILL.md".toList) ("hi".toList)]]]] =
      [⟨("bnd".toList) ++ "-".toList ++ ("doc".toList), .Skill, .Cursor,
        (write_cursor [] ("bnd".toList) ⟨"doc".toList, [], .Skill, none⟩ ("hi".toList)).1,
        some (("bnd".toList) ++ "-".toList ++ ("doc".toList))⟩]) ∧
    (discover_installed
      [.dir (".cursor".toList) [.dir ("rules".toList)
        [.dir (("bnd".toList) ++ "-".toList ++ ("doc".toList))
          [.file ("RULE.md".toList) ("hi".toList)]]]] =
      [⟨("bnd".toList) ++ "-".toList ++ ("doc".toList), .Rule, .Cursor,
        (write_cursor [] ("bnd".toList) ⟨"doc".toList, [], .Rule, none⟩ ("hi".toList)).1,
        some (("bnd".toList) ++ "-".toList ++ ("doc".toList))⟩]) :=
  C9_write_discover_roundtrip ("bnd".toList) ("doc".toList) ("hi".toList) ("hi".toList)
    [] none (by decide)


/-! ### C10: source listing and the marketplace strategy -/

unseal List.merge List.mergeSort in
theorem sortBundles_singleton (b : Bundle) : sortBundles [b] = [b] := rfl

unseal List.merge List.mergeSort in
theorem sortBundles_nil : sortBundles [] = [] := rfl

/-- A manifest-less, resources-less source root containing
`skills/helper/SKILL.md`. -/
def c10Fs : List Entry :=
  [.dir ("skills".toList) [.dir ("helper".toList)
    [.file ("SKILL.md".toList) ("# H".toList)]]]

unseal List.merge List.mergeSort in
/-- C10 counterexample: on a root containing `skills/helper/SKILL.md` (no
manifest, no `resources/`), the marketplace scanner would produce the
single-skill bundle `helper`, but `LocalSource::list_bundles` never invokes
it: its flat scan treats `skills` as a bundle directory, finds no
`skills/skills`, `skills/agents`, `skills/commands` or `skills/rules`
subdirectory inside it, drops the empty bundle and returns no bundles. -/
theorem C10_counterexample :
    LocalSource.list_bundles [] c10Fs = [] ∧
    (list_from_anthropic_path [] c10Fs).map (fun b => b.name) = ["helper".toList] := by
  refine ⟨by decide, by decide⟩

/-- C10 (corrected): the marketplace scanner itself behaves as specified —
each non-hidden `skills/{fn}/SKILL.md` subfolder becomes its own
single-skill bundle named from the `SKILL.md` frontmatter `name` when
present and otherwise from the folder name — but `LocalSource::list_bundles`
never applies it: on the same root (no manifest support exists at all, and
no `resources/` directory) the flat scan runs instead and produces no
bundle whenever the folder name collides with no component directory
name. -/
theorem C10_marketplace_not_wired (rootPath : List Str) (fn c : Str)
    (hd : fn.headD ' ' ≠ '.') (hu : fn.headD ' ' ≠ '_')
    (h1 : fn ≠ "skills".toList) (h2 : fn ≠ "agents".toList)
    (h3 : fn ≠ "commands".toList) (h4 : fn ≠ "rules".toList) :
    list_from_anthropic_path rootPath
      [.dir ("skills".toList) [.dir fn [.file ("SKILL.md".toList) c]]] =
      [{ name := ((extract_frontmatter c).bind (fun m => m.name)).getD fn
         path := rootPath ++ ["skills".toList, fn]
         skills := [⟨((extract_frontmatter c).bind (fun m => m.name)).getD fn,
           rootPath ++ ["skills".toList, fn, "SKILL.md".toList], .Skill, none⟩]
         agents := [], commands := [], rules := []
         meta := ⟨(extract_frontmatter c).bind (fun m => m.author),
                  (extract_frontmatter c).bind (fun m => m.description)⟩ }] ∧
    LocalSource.list_bundles rootPath
      [.dir ("skills".toList) [.dir fn [.file ("SKILL.md".toList) c]]] = [] := by
  constructor
  · unfold list_from_anthropic_path
    have hl : lookupDir
        [Entry.dir ("skills".toList) [Entry.dir fn [Entry.file ("SKILL.md".toList) c]]]
        ("skills".toList) = some [Entry.dir fn [Entry.file ("SKILL.md".toList) c]] := rfl
    rw [hl]
    have hlf : lookupFile [Entry.file ['S', 'K', 'I', 'L', 'L', '.', 'm', 'd'] c]
        ['S', 'K', 'I', 'L', 'L', '.', 'm', 'd'] = some c := rfl
    have hd' : (fn.head?).getD ' ' ≠ '.' := by cases fn <;> exact hd
    have hu' : (fn.head?).getD ' ' ≠ '_' := by cases fn <;> exact hu
    simp [List.filterMap, hd', hu', hlf, sortBundles_singleton]
  · have hfdir : ∀ t : SkillType,
        lookupDir [Entry.dir fn [Entry.file ("SKILL.md".toList) c]] t.dir_name = none := by
      intro t
      have h1' : fn ≠ ['s', 'k', 'i', 'l', 'l', 's'] := h1
      have h2' : fn ≠ ['a', 'g', 'e', 'n', 't', 's'] := h2
      have h3' : fn ≠ ['c', 'o', 'm', 'm', 'a', 'n', 'd', 's'] := h3
      have h4' : fn ≠ ['r', 'u', 'l', 'e', 's'] := h4
      cases t <;>
        simp [lookupDir, List.findSome?, SkillType.dir_name, h1', h2', h3', h4']
    have hsc : ∀ t : SkillType, scan_type (rootPath ++ [("skills".toList)])
        [Entry.dir fn [Entry.file ("SKILL.md".toList) c]] t = [] := by
      intro t
      unfold scan_type
      rw [hfdir t]
    have hbp : Bundle.from_path (rootPath ++ [("skills".toList)])
        [Entry.dir fn [Entry.file ("SKILL.md".toList) c]] =
        some { name := "skills".toList, path := rootPath ++ [("skills".toList)],
               skills := [], agents := [], commands := [], rules := [],
               meta := ⟨none, none⟩ } := by
      unfold Bundle.from_path
      rw [List.getLast?_concat]
      simp only [Option.map_some']
      rw [hsc SkillType.Skill, hsc SkillType.Agent, hsc SkillType.Command, hsc SkillType.Rule]
    unfold LocalSource.list_bundles
    have hres : lookupDir
        [Entry.dir ("skills".toList) [Entry.dir fn [Entry.file ("SKILL.md".toList) c]]]
        ("resources".toList) = none := rfl
    rw [hres]
    simp only [Option.isSome_none, Bool.false_eq_true, if_false]
    simp only [List.filterMap_cons, List.filterMap_nil]
    rw [if_neg (by decide)]
    rw [hbp]
    simp [Bundle.isEmpty, sortBundles_nil]

/-- Witness for C10 at folder `helper` with body `# H`. -/
theorem C10_marketplace_not_wired_witness :
    (list_from_anthropic_path []
      [.dir ("skills".toList) [.dir ("helper".toList)
        [.file ("SKILL.md".toList) ("# H".toList)]]] =
      [{ name := ((extract_frontmatter ("# H".toList)).bind
           (fun m => m.name)).getD ("helper".toList)
         path := ["skills".toList, "helper".toList]
         skills := [⟨((extract_frontmatter ("# H".toList)).bind
             (fun m => m.name)).getD ("helper".toList),
           ["skills".toList, "helper".toList, "SKILL.md".toList], .Skill, none⟩]
         agents := [], commands := [], rules := []
         meta := ⟨(extract_frontmatter ("# H".toList)).bind (fun m => m.author),
                  (extract_frontmatter ("# H".toList)).bind (fun m => m.description)⟩ }]) ∧
    LocalSource.list_bundles []
      [.dir ("skills".toList) [.dir ("helper".toList)
        [.file ("SKILL.md".toList) ("# H".toList)]]] = [] := by
  have h := C10_marketplace_not_wired [] ("helper".toList) ("# H".toList)
    (by decide) (by decide) (by decide) (by decide) (by decide) (by decide)
  simpa using h

end SkillMgr
